import Mathlib

/-!
Verification of the default revset engine (`src/lib/src/default_revset_engine.rs`).

The engine is embedded shallowly:

* `IndexPosition` is a `Nat`; `IndexEntry` keeps the fields the engine reads
  (`position`, `commit_id`, `parent_positions`).
* Lazy iterators become Lean lists: each Rust `Iterator::next` loop is
  translated into a recursive function producing the whole stream.
* The stateful predicate probes (`to_predicate_fn`) become an explicit state
  type `Probe` with a `step` function returning the tri-state result and the
  advanced state.
* Fallible evaluation is `Except RevsetError`; a Rust panic (`unwrap` on a
  missing entry) is `Option.none`.
-/

namespace RevsetEngine

/-- The tri-state predicate result, from `enum PredicateMatch`. -/
inductive PredicateMatch where
  | Match
  | NotThisOne
  | NeverAgain
deriving DecidableEq, Repr

/-- `PredicateMatch::from_boolean`. -/
def PredicateMatch.from_boolean (b : Bool) : PredicateMatch :=
  if b then .Match else .NotThisOne

/-- `PredicateMatch::and`, with the source's match-arm order. -/
def PredicateMatch.and : PredicateMatch → PredicateMatch → PredicateMatch
  | .Match, .Match => .Match
  | .NeverAgain, _ => .NeverAgain
  | _, .NeverAgain => .NeverAgain
  | _, _ => .NotThisOne

/-- `PredicateMatch::or`, with the source's match-arm order. -/
def PredicateMatch.or : PredicateMatch → PredicateMatch → PredicateMatch
  | .NeverAgain, .NeverAgain => .NeverAgain
  | .Match, _ => .Match
  | _, .Match => .Match
  | _, _ => .NotThisOne

/-- `PredicateMatch::and_not`, with the source's match-arm order. -/
def PredicateMatch.and_not : PredicateMatch → PredicateMatch → PredicateMatch
  | .NeverAgain, _ => .NeverAgain
  | _, .Match => .NotThisOne
  | .Match, _ => .Match
  | _, _ => .NotThisOne

/-- An index entry, keeping the fields `default_revset_engine.rs` reads:
`position()`, `commit_id()` (abstracted to a `Nat`), `parent_positions()`. -/
structure IndexEntry where
  position : Nat
  commitId : Nat
  parentPositions : List Nat
deriving DecidableEq, Repr

/-- Strictly descending index positions: the engine's global ordering
invariant on iterator output. -/
abbrev Desc (l : List IndexEntry) : Prop :=
  l.Pairwise (fun a b => b.position < a.position)

/-- State of a stateful predicate probe (`to_predicate_fn`).  `fromIter` is
the state of `predicate_fn_from_iter` (the not-yet-consumed suffix of the
underlying iterator); the other constructors are the combinator closures
built by `FilterRevset`, `UnionRevset` and `DifferenceRevset`. -/
inductive Probe where
  | fromIter (remaining : List IndexEntry)
  | andP (p1 p2 : Probe)
  | orP (p1 p2 : Probe)
  | andNotP (p1 p2 : Probe)
  | pureP (f : IndexEntry → Bool)

/-- One call of the probe.  The `fromIter` case is
`predicate_fn_from_iter`: advance the iterator while entries have position
strictly greater than the argument's, then test the head for equality;
the combinator cases call both sub-probes and combine the results. -/
def Probe.step : Probe → IndexEntry → PredicateMatch × Probe
  | .fromIter rem, e =>
    match rem.dropWhile (fun x => e.position < x.position) with
    | [] => (.NeverAgain, .fromIter [])
    | x :: rest =>
      if x.position = e.position then (.Match, .fromIter rest)
      else (.NotThisOne, .fromIter (x :: rest))
  | .andP p1 p2, e =>
    match p1.step e, p2.step e with
    | (r1, q1), (r2, q2) => (r1.and r2, .andP q1 q2)
  | .orP p1 p2, e =>
    match p1.step e, p2.step e with
    | (r1, q1), (r2, q2) => (r1.or r2, .orP q1 q2)
  | .andNotP p1 p2, e =>
    match p1.step e, p2.step e with
    | (r1, q1), (r2, q2) => (r1.and_not r2, .andNotP q1 q2)
  | .pureP f, e => (.from_boolean (f e), .pureP f)

/-- The membership test a probe decides (positions still to come included):
used to state functional correctness of the probes. -/
def Probe.matches : Probe → IndexEntry → Bool
  | .fromIter rem, e => rem.any (fun x => x.position = e.position)
  | .andP p1 p2, e => p1.matches e && p2.matches e
  | .orP p1 p2, e => p1.matches e || p2.matches e
  | .andNotP p1 p2, e => p1.matches e && !(p2.matches e)
  | .pureP f, e => f e

/-- Well-formed probe: every underlying iterator suffix is strictly
descending (the engine's invariant). -/
@[reducible]
def Probe.WFp : Probe → Prop
  | .fromIter rem => Desc rem
  | .andP p1 p2 => p1.WFp ∧ p2.WFp
  | .orP p1 p2 => p1.WFp ∧ p2.WFp
  | .andNotP p1 p2 => p1.WFp ∧ p2.WFp
  | .pureP _ => True

/-- `UnionRevsetIterator::next`, unrolled to the whole stream: parallel
descending merge; on equal positions both sides advance and the second
side's entry is emitted. -/
def unionIter : List IndexEntry → List IndexEntry → List IndexEntry
  | [], ys => ys
  | x :: xs, [] => x :: xs
  | x :: xs, y :: ys =>
    if x.position < y.position then y :: unionIter (x :: xs) ys
    else if y.position < x.position then x :: unionIter xs (y :: ys)
    else y :: unionIter xs ys
termination_by xs ys => xs.length + ys.length
decreasing_by all_goals (simp; try omega)

/-- `DifferenceRevsetIterator::next`, unrolled to the whole stream: emit
the left entry when its position is greater, drop both on equal positions,
advance the right side when its position is greater. -/
def differenceIter : List IndexEntry → List IndexEntry → List IndexEntry
  | [], _ => []
  | x :: xs, [] => x :: xs
  | x :: xs, y :: ys =>
    if x.position < y.position then differenceIter (x :: xs) ys
    else if y.position < x.position then x :: differenceIter xs (y :: ys)
    else differenceIter xs ys
termination_by xs ys => xs.length + ys.length
decreasing_by all_goals (simp; try omega)

/-- `FilterRevsetIterator::next`, unrolled: walk the candidates, emit on
`Match`, skip on `NotThisOne`, terminate the whole stream on `NeverAgain`. -/
def filterLoop : List IndexEntry → Probe → List IndexEntry
  | [], _ => []
  | c :: cs, pr =>
    match pr.step c with
    | (.Match, pr') => c :: filterLoop cs pr'
    | (.NotThisOne, pr') => filterLoop cs pr'
    | (.NeverAgain, _) => []

/-- `ChildrenRevset::iter`: keep the candidates one of whose parent
positions lies in the root set's positions. -/
def childrenIter (rootEntries candidates : List IndexEntry) : List IndexEntry :=
  candidates.filter (fun cand =>
    cand.parentPositions.any (fun pp => (rootEntries.map (·.position)).contains pp))

/-- The internal set tree the engine builds: `EagerRevset`, `RevWalkRevset`
(the external walk materialised as its entry stream), `ChildrenRevset`,
`FilterRevset` with a set predicate (the intersection reuse) or a pure
content predicate (`PurePredicateFn`), `UnionRevset`, `DifferenceRevset`. -/
inductive RSet where
  | eager (entries : List IndexEntry)
  | walk (entries : List IndexEntry)
  | children (rootSet candidateSet : RSet)
  | filterSet (candidates pred : RSet)
  | filterPure (candidates : RSet) (f : IndexEntry → Bool)
  | union (set1 set2 : RSet)
  | difference (set1 set2 : RSet)

mutual

/-- `InternalRevset::iter` for each concrete set kind. -/
def iterR : RSet → List IndexEntry
  | .eager es => es
  | .walk es => es
  | .children r c => childrenIter (iterR r) (iterR c)
  | .filterSet c p => filterLoop (iterR c) (toProbe p)
  | .filterPure c f => filterLoop (iterR c) (.pureP f)
  | .union s1 s2 => unionIter (iterR s1) (iterR s2)
  | .difference s1 s2 => differenceIter (iterR s1) (iterR s2)
termination_by s => (sizeOf s, 0)

/-- `ToPredicateFn::to_predicate_fn` for each concrete set kind: the
iterator-backed probe for `Eager`/`Walk`/`Children`, `and`/`or`/`and_not`
combinations for `Filter`/`Union`/`Difference`. -/
def toProbe : RSet → Probe
  | .eager es => .fromIter es
  | .walk es => .fromIter es
  | .children r c => .fromIter (iterR (.children r c))
  | .filterSet c p => .andP (toProbe c) (toProbe p)
  | .filterPure c f => .andP (toProbe c) (.pureP f)
  | .union s1 s2 => .orP (toProbe s1) (toProbe s2)
  | .difference s1 s2 => .andNotP (toProbe s1) (toProbe s2)
termination_by s => (sizeOf s, 1)

end

/-- Well-formed set: every materialised entry list is strictly descending,
as the engine guarantees for the sets it builds. -/
@[reducible]
def WF : RSet → Prop
  | .eager es => Desc es
  | .walk es => Desc es
  | .children r c => WF r ∧ WF c
  | .filterSet c p => WF c ∧ WF p
  | .filterPure c _ => WF c
  | .union s1 s2 => WF s1 ∧ WF s2
  | .difference s1 s2 => WF s1 ∧ WF s2

/-- Sets composed without pure content predicates (their membership is a
function of the index position alone). -/
@[reducible]
def NoPure : RSet → Prop
  | .eager _ => True
  | .walk _ => True
  | .children r c => NoPure r ∧ NoPure c
  | .filterSet c p => NoPure c ∧ NoPure p
  | .filterPure _ _ => False
  | .union s1 s2 => NoPure s1 ∧ NoPure s2
  | .difference s1 s2 => NoPure s1 ∧ NoPure s2

theorem filterLoop_sublist (cs : List IndexEntry) (pr : Probe) :
    (filterLoop cs pr).Sublist cs := by
  induction cs generalizing pr with
  | nil => simp [filterLoop]
  | cons c cs ih =>
    rw [filterLoop]
    rcases h : pr.step c with ⟨r, pr'⟩
    cases r with
    | Match => exact (ih pr').cons₂ c
    | NotThisOne => exact (ih pr').cons c
    | NeverAgain => exact List.nil_sublist _

theorem differenceIter_sublist (xs ys : List IndexEntry) :
    (differenceIter xs ys).Sublist xs := by
  induction xs, ys using differenceIter.induct with
  | case1 ys => simp [differenceIter]
  | case2 x xs => simp [differenceIter]
  | case3 x xs y ys h ih => rw [differenceIter, if_pos h]; exact ih
  | case4 x xs y ys h1 h2 ih =>
    rw [differenceIter, if_neg h1, if_pos h2]; exact ih.cons₂ x
  | case5 x xs y ys h1 h2 ih =>
    rw [differenceIter, if_neg h1, if_neg h2]; exact ih.cons x

theorem mem_unionIter {e : IndexEntry} (xs ys : List IndexEntry)
    (h : e ∈ unionIter xs ys) : e ∈ xs ∨ e ∈ ys := by
  induction xs, ys using unionIter.induct with
  | case1 ys => simp [unionIter] at h; exact Or.inr h
  | case2 x xs => rw [unionIter] at h; exact Or.inl h
  | case3 x xs y ys hlt ih =>
    rw [unionIter, if_pos hlt] at h
    rcases List.mem_cons.mp h with h | h
    · exact Or.inr (h ▸ List.mem_cons_self y ys)
    · rcases ih h with h | h
      · exact Or.inl h
      · exact Or.inr (List.mem_cons_of_mem y h)
  | case4 x xs y ys h1 h2 ih =>
    rw [unionIter, if_neg h1, if_pos h2] at h
    rcases List.mem_cons.mp h with h | h
    · exact Or.inl (h ▸ List.mem_cons_self x xs)
    · rcases ih h with h | h
      · exact Or.inl (List.mem_cons_of_mem x h)
      · exact Or.inr h
  | case5 x xs y ys h1 h2 ih =>
    rw [unionIter, if_neg h1, if_neg h2] at h
    rcases List.mem_cons.mp h with h | h
    · exact Or.inr (h ▸ List.mem_cons_self y ys)
    · rcases ih h with h | h
      · exact Or.inl (List.mem_cons_of_mem x h)
      · exact Or.inr (List.mem_cons_of_mem y h)

theorem unionIter_desc {xs ys : List IndexEntry}
    (hx : Desc xs) (hy : Desc ys) : Desc (unionIter xs ys) := by
  induction xs, ys using unionIter.induct with
  | case1 ys => simpa [unionIter] using hy
  | case2 x xs => simpa [unionIter] using hx
  | case3 x xs y ys hlt ih =>
    rw [unionIter, if_pos hlt]
    rcases List.pairwise_cons.mp hy with ⟨hyall, hy'⟩
    refine List.pairwise_cons.mpr ⟨?_, ih hx hy'⟩
    intro z hz
    rcases mem_unionIter _ _ hz with h | h
    · rcases List.mem_cons.mp h with rfl | h
      · exact hlt
      · exact lt_trans ((List.pairwise_cons.mp hx).1 z h) hlt
    · exact hyall z h
  | case4 x xs y ys h1 h2 ih =>
    rw [unionIter, if_neg h1, if_pos h2]
    rcases List.pairwise_cons.mp hx with ⟨hxall, hx'⟩
    refine List.pairwise_cons.mpr ⟨?_, ih hx' hy⟩
    intro z hz
    rcases mem_unionIter _ _ hz with h | h
    · exact hxall z h
    · rcases List.mem_cons.mp h with rfl | h
      · exact h2
      · exact lt_trans ((List.pairwise_cons.mp hy).1 z h) h2
  | case5 x xs y ys h1 h2 ih =>
    rw [unionIter, if_neg h1, if_neg h2]
    have hxy : y.position = x.position := by omega
    rcases List.pairwise_cons.mp hx with ⟨hxall, hx'⟩
    rcases List.pairwise_cons.mp hy with ⟨hyall, hy'⟩
    refine List.pairwise_cons.mpr ⟨?_, ih hx' hy'⟩
    intro z hz
    rcases mem_unionIter _ _ hz with h | h
    · exact hxy ▸ hxall z h
    · exact hyall z h

theorem differenceIter_desc {xs : List IndexEntry} (ys : List IndexEntry)
    (hx : Desc xs) : Desc (differenceIter xs ys) :=
  List.Pairwise.sublist (differenceIter_sublist xs ys) hx

theorem childrenIter_desc {cs : List IndexEntry} (rs : List IndexEntry)
    (hc : Desc cs) : Desc (childrenIter rs cs) :=
  List.Pairwise.sublist (List.filter_sublist cs) hc

theorem filterLoop_desc {cs : List IndexEntry} (pr : Probe)
    (hc : Desc cs) : Desc (filterLoop cs pr) :=
  List.Pairwise.sublist (filterLoop_sublist cs pr) hc

/-- Every well-formed internal set iterates in strictly descending
position order. -/
theorem iter_desc : ∀ {s : RSet}, WF s → Desc (iterR s)
  | .eager _, h => by rw [iterR]; exact h
  | .walk _, h => by rw [iterR]; exact h
  | .children r c, h => by
    rw [iterR]; exact childrenIter_desc _ (iter_desc h.2)
  | .filterSet c p, h => by
    rw [iterR]; exact filterLoop_desc _ (iter_desc h.1)
  | .filterPure c f, h => by
    rw [iterR]; exact filterLoop_desc _ (iter_desc h)
  | .union s1 s2, h => by
    rw [iterR]; exact unionIter_desc (iter_desc h.1) (iter_desc h.2)
  | .difference s1 s2, h => by
    rw [iterR]; exact differenceIter_desc _ (iter_desc h.1)

theorem desc_nodup {l : List IndexEntry} (h : Desc l) :
    (l.map (·.position)).Nodup := by
  refine List.pairwise_map.mpr (h.imp ?_)
  intro a b hab
  exact Nat.ne_of_gt hab

theorem and_eq_match (a b : PredicateMatch) :
    a.and b = .Match ↔ a = .Match ∧ b = .Match := by
  cases a <;> cases b <;> simp [PredicateMatch.and]

theorem or_eq_match (a b : PredicateMatch) :
    a.or b = .Match ↔ a = .Match ∨ b = .Match := by
  cases a <;> cases b <;> simp [PredicateMatch.or]

theorem and_not_eq_match (a b : PredicateMatch) :
    a.and_not b = .Match ↔ a = .Match ∧ b ≠ .Match := by
  cases a <;> cases b <;> simp [PredicateMatch.and_not]

theorem and_eq_never (a b : PredicateMatch) :
    a.and b = .NeverAgain ↔ a = .NeverAgain ∨ b = .NeverAgain := by
  cases a <;> cases b <;> simp [PredicateMatch.and]

theorem or_eq_never (a b : PredicateMatch) :
    a.or b = .NeverAgain ↔ a = .NeverAgain ∧ b = .NeverAgain := by
  cases a <;> cases b <;> simp [PredicateMatch.or]

theorem and_not_eq_never (a b : PredicateMatch) :
    a.and_not b = .NeverAgain ↔ a = .NeverAgain := by
  cases a <;> cases b <;> simp [PredicateMatch.and_not]

theorem from_boolean_eq_match (b : Bool) :
    PredicateMatch.from_boolean b = .Match ↔ b = true := by
  cases b <;> simp [PredicateMatch.from_boolean]

theorem from_boolean_ne_never (b : Bool) :
    PredicateMatch.from_boolean b ≠ .NeverAgain := by
  cases b <;> simp [PredicateMatch.from_boolean]

/-- After a call at `e`, the iterator-backed probe's state is exactly the
entries of strictly lower position than `e`'s. -/
theorem step_fromIter_snd {rem : List IndexEntry} (e : IndexEntry) (h : Desc rem) :
    ((Probe.fromIter rem).step e).2 =
      .fromIter (rem.filter (fun x => x.position < e.position)) := by
  induction rem with
  | nil => rfl
  | cons x rest ih =>
    rcases List.pairwise_cons.mp h with ⟨hall, h'⟩
    simp only [Probe.step, List.dropWhile_cons, List.filter_cons] at ih ⊢
    by_cases hx : e.position < x.position
    · rw [if_pos (decide_eq_true hx), if_neg (by simp; omega)]
      exact ih h'
    · rw [if_neg (by simpa using hx)]
      dsimp only
      by_cases heq : x.position = e.position
      · rw [if_pos heq, if_neg (by simp; omega)]
        simp only [Probe.fromIter.injEq]
        exact (List.filter_eq_self.mpr (fun a ha => by
          have := hall a ha; simp; omega)).symm
      · have hlt : x.position < e.position := by omega
        rw [if_neg heq, if_pos (decide_eq_true hlt)]
        simp only [Probe.fromIter.injEq, List.cons.injEq, true_and]
        exact (List.filter_eq_self.mpr (fun a ha => by
          have := hall a ha; simp; omega)).symm

/-- The iterator-backed probe answers `Match` exactly when the argument's
position occurs in the remaining entries. -/
theorem step_fromIter_match {rem : List IndexEntry} (e : IndexEntry) (h : Desc rem) :
    (((Probe.fromIter rem).step e).1 = .Match) ↔
      (Probe.matches (.fromIter rem) e = true) := by
  induction rem with
  | nil => simp [Probe.step, Probe.matches]
  | cons x rest ih =>
    rcases List.pairwise_cons.mp h with ⟨hall, h'⟩
    simp only [Probe.step, List.dropWhile_cons] at ih ⊢
    by_cases hx : e.position < x.position
    · have hne : ¬ (x.position = e.position) := by omega
      rw [if_pos (decide_eq_true hx), ih h']
      simp [Probe.matches, hne]
    · rw [if_neg (by simpa using hx)]
      dsimp only
      by_cases heq : x.position = e.position
      · rw [if_pos heq]
        simp [Probe.matches, heq]
      · rw [if_neg heq]
        have hrest : ∀ a ∈ rest, ¬ (a.position = e.position) := fun a ha => by
          have := hall a ha; omega
        simp only [Probe.matches]
        constructor
        · intro hc; cases hc
        · intro hc
          rcases List.any_eq_true.mp hc with ⟨a, ha, hpa⟩
          rcases List.mem_cons.mp ha with rfl | ha'
          · exact absurd (of_decide_eq_true hpa) heq
          · exact absurd (of_decide_eq_true hpa) (hrest a ha')

/-- `NeverAgain` from the iterator-backed probe means every remaining entry
has position strictly greater than the argument's. -/
theorem step_fromIter_never {rem : List IndexEntry} (e : IndexEntry) :
    (((Probe.fromIter rem).step e).1 = .NeverAgain) ↔
      rem.dropWhile (fun x => e.position < x.position) = [] := by
  rcases hdw : rem.dropWhile (fun x => e.position < x.position) with _ | ⟨x, rest⟩
  · simp [Probe.step, hdw]
  · simp only [Probe.step, hdw]
    by_cases heq : x.position = e.position <;> simp [heq]

theorem step_andP (p1 p2 : Probe) (e : IndexEntry) :
    (Probe.andP p1 p2).step e =
      ((p1.step e).1.and (p2.step e).1, .andP (p1.step e).2 (p2.step e).2) := rfl

theorem step_orP (p1 p2 : Probe) (e : IndexEntry) :
    (Probe.orP p1 p2).step e =
      ((p1.step e).1.or (p2.step e).1, .orP (p1.step e).2 (p2.step e).2) := rfl

theorem step_andNotP (p1 p2 : Probe) (e : IndexEntry) :
    (Probe.andNotP p1 p2).step e =
      ((p1.step e).1.and_not (p2.step e).1, .andNotP (p1.step e).2 (p2.step e).2) := rfl

/-- A call of the probe preserves well-formedness of its state. -/
theorem step_wf : ∀ {pr : Probe}, pr.WFp → ∀ e, ((pr.step e).2).WFp := by
  intro pr
  induction pr with
  | fromIter rem =>
    intro h e
    rw [step_fromIter_snd e h]
    exact List.Pairwise.sublist (List.filter_sublist rem) h
  | andP p1 p2 ih1 ih2 => intro h e; rw [step_andP]; exact ⟨ih1 h.1 e, ih2 h.2 e⟩
  | orP p1 p2 ih1 ih2 => intro h e; rw [step_orP]; exact ⟨ih1 h.1 e, ih2 h.2 e⟩
  | andNotP p1 p2 ih1 ih2 => intro h e; rw [step_andNotP]; exact ⟨ih1 h.1 e, ih2 h.2 e⟩
  | pureP f => intro h e; exact trivial

/-- A call at `e` does not change what the probe will answer at strictly
lower positions. -/
theorem step_future : ∀ {pr : Probe}, pr.WFp → ∀ e e', e'.position < e.position →
    ((pr.step e).2).matches e' = pr.matches e' := by
  intro pr
  induction pr with
  | fromIter rem =>
    intro h e e' hlt
    rw [step_fromIter_snd e h]
    simp only [Probe.matches]
    rcases hany : rem.any (fun x => x.position = e'.position) with _ | _
    · rw [List.any_eq_false] at hany ⊢
      intro a ha
      exact hany a (List.mem_of_mem_filter ha)
    · rw [List.any_eq_true] at hany ⊢
      rcases hany with ⟨a, ha, hpa⟩
      refine ⟨a, List.mem_filter.mpr ⟨ha, ?_⟩, hpa⟩
      have := of_decide_eq_true hpa
      simp; omega
  | andP p1 p2 ih1 ih2 =>
    intro h e e' hlt
    rw [step_andP]
    simp only [Probe.matches, ih1 h.1 e e' hlt, ih2 h.2 e e' hlt]
  | orP p1 p2 ih1 ih2 =>
    intro h e e' hlt
    rw [step_orP]
    simp only [Probe.matches, ih1 h.1 e e' hlt, ih2 h.2 e e' hlt]
  | andNotP p1 p2 ih1 ih2 =>
    intro h e e' hlt
    rw [step_andNotP]
    simp only [Probe.matches, ih1 h.1 e e' hlt, ih2 h.2 e e' hlt]
  | pureP f => intro h e e' hlt; rfl

/-- Single-call functional correctness of every probe: the call answers
`Match` exactly when the probed set contains the argument. -/
theorem step_match : ∀ {pr : Probe}, pr.WFp → ∀ e,
    ((pr.step e).1 = .Match ↔ pr.matches e = true) := by
  intro pr
  induction pr with
  | fromIter rem => intro h e; exact step_fromIter_match e h
  | andP p1 p2 ih1 ih2 =>
    intro h e
    rw [step_andP]
    dsimp only
    rw [and_eq_match, ih1 h.1 e, ih2 h.2 e]
    simp [Probe.matches]
  | orP p1 p2 ih1 ih2 =>
    intro h e
    rw [step_orP]
    dsimp only
    rw [or_eq_match, ih1 h.1 e, ih2 h.2 e]
    simp [Probe.matches]
  | andNotP p1 p2 ih1 ih2 =>
    intro h e
    rw [step_andNotP]
    dsimp only
    rw [and_not_eq_match, ih1 h.1 e]
    simp only [Probe.matches, Bool.and_eq_true, Bool.not_eq_true']
    constructor
    · rintro ⟨h1, h2⟩
      refine ⟨h1, ?_⟩
      rcases hb : p2.matches e with _ | _
      · rfl
      · exact absurd ((ih2 h.2 e).mpr hb) h2
    · rintro ⟨h1, h2⟩
      refine ⟨h1, fun hc => ?_⟩
      rw [(ih2 h.2 e).mp hc] at h2
      cases h2
  | pureP f =>
    intro h e
    simp only [Probe.step, Probe.matches]
    exact from_boolean_eq_match (f e)

/-- After a `NeverAgain` answer the advanced probe matches nothing. -/
theorem step_dead : ∀ {pr : Probe}, pr.WFp → ∀ e, (pr.step e).1 = .NeverAgain →
    ∀ e', ((pr.step e).2).matches e' = false := by
  intro pr
  induction pr with
  | fromIter rem =>
    intro h e hna e'
    rw [step_fromIter_never] at hna
    rw [step_fromIter_snd e h]
    have hall : ∀ x ∈ rem, e.position < x.position := by
      intro x hx
      simpa using List.dropWhile_eq_nil_iff.mp hna x hx
    have : rem.filter (fun x => x.position < e.position) = [] := by
      rw [List.filter_eq_nil_iff]
      intro a ha
      have := hall a ha
      simp; omega
    rw [this]
    rfl
  | andP p1 p2 ih1 ih2 =>
    intro h e hna e'
    rw [step_andP] at hna ⊢
    dsimp only at hna ⊢
    rcases (and_eq_never _ _).mp hna with h1 | h2
    · simp only [Probe.matches, ih1 h.1 e h1 e', Bool.false_and]
    · simp only [Probe.matches, ih2 h.2 e h2 e', Bool.and_false]
  | orP p1 p2 ih1 ih2 =>
    intro h e hna e'
    rw [step_orP] at hna ⊢
    dsimp only at hna ⊢
    rcases (or_eq_never _ _).mp hna with ⟨h1, h2⟩
    simp only [Probe.matches, ih1 h.1 e h1 e', ih2 h.2 e h2 e', Bool.or_false]
  | andNotP p1 p2 ih1 ih2 =>
    intro h e hna e'
    rw [step_andNotP] at hna ⊢
    dsimp only at hna ⊢
    have h1 := (and_not_eq_never _ _).mp hna
    simp only [Probe.matches, ih1 h.1 e h1 e', Bool.false_and]
  | pureP f =>
    intro h e hna e'
    exact absurd hna (from_boolean_ne_never (f e))

/-- On strictly descending candidates, the filter iterator emits exactly
the candidates the predicate set contains. -/
theorem filterLoop_eq_filter : ∀ (cs : List IndexEntry) (pr : Probe), Desc cs → pr.WFp →
    filterLoop cs pr = cs.filter (fun e => pr.matches e) := by
  intro cs
  induction cs with
  | nil => intro pr _ _; rfl
  | cons c cs ih =>
    intro pr hcs hpr
    rcases List.pairwise_cons.mp hcs with ⟨hall, hcs'⟩
    have hfut : cs.filter (fun e => ((pr.step c).2).matches e) =
        cs.filter (fun e => pr.matches e) :=
      List.filter_congr (fun e he => by rw [step_future hpr c e (hall e he)])
    rw [filterLoop, List.filter_cons]
    rcases hstep : pr.step c with ⟨r, pr'⟩
    have hwf' : pr'.WFp := by
      have := step_wf hpr c
      rw [hstep] at this
      exact this
    have hfut' : cs.filter (fun e => pr'.matches e) = cs.filter (fun e => pr.matches e) := by
      rw [← hfut, hstep]
    cases r with
    | Match =>
      have hm : pr.matches c = true := (step_match hpr c).mp (by rw [hstep])
      dsimp only
      rw [ih pr' hcs' hwf', hfut', hm]
      simp
    | NotThisOne =>
      have h1 : (pr.step c).1 = PredicateMatch.NotThisOne := by rw [hstep]
      have hm : ¬ (pr.matches c = true) := fun hc => by
        rw [(step_match hpr c).mpr hc] at h1; cases h1
      dsimp only
      rw [ih pr' hcs' hwf', hfut']
      simp [hm]
    | NeverAgain =>
      have h1 : (pr.step c).1 = PredicateMatch.NeverAgain := by rw [hstep]
      have hm : ¬ (pr.matches c = true) := fun hc => by
        rw [(step_match hpr c).mpr hc] at h1; cases h1
      have hdead : ∀ e', pr'.matches e' = false := fun e' => by
        have := step_dead hpr c h1 e'
        rw [hstep] at this
        exact this
      have hnil : cs.filter (fun e => pr.matches e) = [] := by
        rw [← hfut', List.filter_eq_nil_iff]
        intro a _
        simp [hdead a]
      dsimp only
      rw [hnil]
      simp [hm]

/-- The probe of a well-formed set is well-formed. -/
theorem toProbe_wf : ∀ {s : RSet}, WF s → (toProbe s).WFp
  | .eager _, h => by rw [toProbe]; exact h
  | .walk _, h => by rw [toProbe]; exact h
  | .children r c, h => by
    rw [toProbe]
    exact @iter_desc (.children r c) h
  | .filterSet c p, h => by
    rw [toProbe]; exact ⟨toProbe_wf h.1, toProbe_wf h.2⟩
  | .filterPure c f, h => by
    rw [toProbe]; exact ⟨toProbe_wf h, trivial⟩
  | .union s1 s2, h => by
    rw [toProbe]; exact ⟨toProbe_wf h.1, toProbe_wf h.2⟩
  | .difference s1 s2, h => by
    rw [toProbe]; exact ⟨toProbe_wf h.1, toProbe_wf h.2⟩

/-- Position-membership in a union stream. -/
theorem pos_mem_unionIter (xs ys : List IndexEntry) (p : Nat) :
    (p ∈ (unionIter xs ys).map (·.position)) ↔
      p ∈ xs.map (·.position) ∨ p ∈ ys.map (·.position) := by
  induction xs, ys using unionIter.induct with
  | case1 ys => rw [unionIter]; simp
  | case2 x xs => rw [unionIter]; simp
  | case3 x xs y ys hlt ih =>
    rw [unionIter, if_pos hlt]
    simp only [List.map_cons, List.mem_cons] at ih ⊢
    constructor
    · rintro (rfl | h)
      · exact Or.inr (Or.inl rfl)
      · rcases ih.mp h with h | h
        · exact Or.inl h
        · exact Or.inr (Or.inr h)
    · rintro ((rfl | h) | (rfl | h))
      · exact Or.inr (ih.mpr (Or.inl (Or.inl rfl)))
      · exact Or.inr (ih.mpr (Or.inl (Or.inr h)))
      · exact Or.inl rfl
      · exact Or.inr (ih.mpr (Or.inr h))
  | case4 x xs y ys h1 h2 ih =>
    rw [unionIter, if_neg h1, if_pos h2]
    simp only [List.map_cons, List.mem_cons] at ih ⊢
    constructor
    · rintro (rfl | h)
      · exact Or.inl (Or.inl rfl)
      · rcases ih.mp h with h | h
        · exact Or.inl (Or.inr h)
        · exact Or.inr h
    · rintro ((rfl | h) | (rfl | h))
      · exact Or.inl rfl
      · exact Or.inr (ih.mpr (Or.inl h))
      · exact Or.inr (ih.mpr (Or.inr (Or.inl rfl)))
      · exact Or.inr (ih.mpr (Or.inr (Or.inr h)))
  | case5 x xs y ys h1 h2 ih =>
    have hxy : x.position = y.position := by omega
    rw [unionIter, if_neg h1, if_neg h2]
    simp only [List.map_cons, List.mem_cons] at ih ⊢
    constructor
    · rintro (rfl | h)
      · exact Or.inr (Or.inl rfl)
      · rcases ih.mp h with h | h
        · exact Or.inl (Or.inr h)
        · exact Or.inr (Or.inr h)
    · rintro ((rfl | h) | (rfl | h))
      · exact Or.inl (hxy ▸ rfl)
      · exact Or.inr (ih.mpr (Or.inl h))
      · exact Or.inl rfl
      · exact Or.inr (ih.mpr (Or.inr h))

/-- Position-membership in a difference stream (descending inputs). -/
theorem pos_mem_differenceIter {xs ys : List IndexEntry} (p : Nat)
    (hx : Desc xs) (hy : Desc ys) :
    (p ∈ (differenceIter xs ys).map (·.position)) ↔
      (p ∈ xs.map (·.position) ∧ ¬ p ∈ ys.map (·.position)) := by
  induction xs, ys using differenceIter.induct with
  | case1 ys => rw [differenceIter]; simp
  | case2 x xs => rw [differenceIter]; simp
  | case3 x xs y ys hlt ih =>
    rw [differenceIter, if_pos hlt]
    rcases List.pairwise_cons.mp hy with ⟨hyall, hy'⟩
    rw [ih hx hy']
    simp only [List.map_cons, List.mem_cons]
    constructor
    · rintro ⟨h1, h2⟩
      refine ⟨h1, fun hc => ?_⟩
      rcases hc with heq | hc
      · subst heq
        rcases h1 with h1 | h1
        · omega
        · rcases List.mem_map.mp h1 with ⟨a, ha, haeq⟩
          have hax := (List.pairwise_cons.mp hx).1 a ha
          omega
      · exact h2 hc
    · rintro ⟨h1, h2⟩
      exact ⟨h1, fun hc => h2 (Or.inr hc)⟩
  | case4 x xs y ys h1 h2 ih =>
    rw [differenceIter, if_neg h1, if_pos h2]
    rcases List.pairwise_cons.mp hx with ⟨hxall, hx'⟩
    rcases List.pairwise_cons.mp hy with ⟨hyall, hy'⟩
    rw [List.map_cons, List.mem_cons, ih hx' hy]
    rw [List.map_cons _ x xs, List.mem_cons]
    constructor
    · rintro (rfl | ⟨ha, hb⟩)
      · refine ⟨Or.inl rfl, fun hc => ?_⟩
        rw [List.map_cons, List.mem_cons] at hc
        rcases hc with heq | hc
        · omega
        · rcases List.mem_map.mp hc with ⟨a, ha, heq⟩
          have := hyall a ha
          omega
      · exact ⟨Or.inr ha, hb⟩
    · rintro ⟨ha | ha, hb⟩
      · exact Or.inl ha
      · exact Or.inr ⟨ha, hb⟩
  | case5 x xs y ys h1 h2 ih =>
    have hxy : x.position = y.position := by omega
    rw [differenceIter, if_neg h1, if_neg h2]
    rcases List.pairwise_cons.mp hx with ⟨hxall, hx'⟩
    rcases List.pairwise_cons.mp hy with ⟨hyall, hy'⟩
    rw [ih hx' hy']
    simp only [List.map_cons, List.mem_cons]
    constructor
    · rintro ⟨ha, hb⟩
      exact ⟨Or.inr ha, fun hc => by
        rcases hc with heq | hc
        · rcases List.mem_map.mp ha with ⟨a, haa, rfl⟩
          have := hxall a haa
          omega
        · exact hb hc⟩
    · rintro ⟨ha | ha, hb⟩
      · exfalso
        exact hb (Or.inl (by omega))
      · exact ⟨ha, fun hc => hb (Or.inr hc)⟩

/-- Probes containing no pure content predicate. -/
@[reducible]
def NoPureP : Probe → Prop
  | .fromIter _ => True
  | .andP p1 p2 => NoPureP p1 ∧ NoPureP p2
  | .orP p1 p2 => NoPureP p1 ∧ NoPureP p2
  | .andNotP p1 p2 => NoPureP p1 ∧ NoPureP p2
  | .pureP _ => False

theorem toProbe_nopure : ∀ {s : RSet}, NoPure s → NoPureP (toProbe s)
  | .eager _, _ => by rw [toProbe]; exact trivial
  | .walk _, _ => by rw [toProbe]; exact trivial
  | .children r c, _ => by rw [toProbe]; exact trivial
  | .filterSet c p, h => by
    rw [toProbe]; exact ⟨toProbe_nopure h.1, toProbe_nopure h.2⟩
  | .filterPure c f, h => absurd h not_false
  | .union s1 s2, h => by
    rw [toProbe]; exact ⟨toProbe_nopure h.1, toProbe_nopure h.2⟩
  | .difference s1 s2, h => by
    rw [toProbe]; exact ⟨toProbe_nopure h.1, toProbe_nopure h.2⟩

/-- A probe without pure predicates only looks at the position. -/
theorem matches_pos_only : ∀ {pr : Probe}, NoPureP pr → ∀ {e1 e2 : IndexEntry},
    e1.position = e2.position → pr.matches e1 = pr.matches e2 := by
  intro pr
  induction pr with
  | fromIter rem => intro _ e1 e2 hp; simp only [Probe.matches, hp]
  | andP p1 p2 ih1 ih2 =>
    intro h e1 e2 hp
    simp only [Probe.matches, ih1 h.1 hp, ih2 h.2 hp]
  | orP p1 p2 ih1 ih2 =>
    intro h e1 e2 hp
    simp only [Probe.matches, ih1 h.1 hp, ih2 h.2 hp]
  | andNotP p1 p2 ih1 ih2 =>
    intro h e1 e2 hp
    simp only [Probe.matches, ih1 h.1 hp, ih2 h.2 hp]
  | pureP f => intro h; exact absurd h not_false

theorem any_pos_eq_contains (es : List IndexEntry) (p : Nat) :
    es.any (fun x => x.position = p) = (es.map (·.position)).contains p := by
  rw [Bool.eq_iff_iff]
  simp only [List.any_eq_true, List.contains_iff_exists_mem_beq, List.mem_map]
  constructor
  · rintro ⟨x, hx, hp⟩
    exact ⟨x.position, ⟨x, hx, rfl⟩, by simpa using (of_decide_eq_true hp).symm⟩
  · rintro ⟨q, ⟨x, hx, rfl⟩, hq⟩
    have hpx : p = x.position := by simpa using hq
    exact ⟨x, hx, by simpa using hpx.symm⟩

/-- The probe of a well-formed, purely set-composed revset decides exactly
position-membership in the set's own iterator output. -/
theorem matches_toProbe : ∀ {s : RSet}, WF s → NoPure s → ∀ e : IndexEntry,
    (toProbe s).matches e = ((iterR s).map (·.position)).contains e.position
  | .eager es, h, hn, e => by
    rw [toProbe, iterR]
    exact any_pos_eq_contains es e.position
  | .walk es, h, hn, e => by
    rw [toProbe, iterR]
    exact any_pos_eq_contains es e.position
  | .children r c, h, hn, e => by
    rw [toProbe]
    exact any_pos_eq_contains _ e.position
  | .filterSet c p, h, hn, e => by
    rw [toProbe, iterR]
    rw [filterLoop_eq_filter _ _ (iter_desc h.1) (toProbe_wf h.2)]
    rw [Bool.eq_iff_iff]
    simp only [Probe.matches, Bool.and_eq_true, List.contains_iff_exists_mem_beq,
      List.mem_map, List.mem_filter]
    constructor
    · rintro ⟨h1, h2⟩
      rw [matches_toProbe h.1 hn.1 e] at h1
      rcases List.contains_iff_exists_mem_beq.mp h1 with ⟨q, hq, hbeq⟩
      rcases List.mem_map.mp hq with ⟨x, hx, rfl⟩
      have hxe : x.position = e.position :=
        (show e.position = x.position by simpa using hbeq).symm
      refine ⟨x.position, ⟨x, ⟨hx, ?_⟩, rfl⟩, by simpa using hxe.symm⟩
      rw [matches_pos_only (toProbe_nopure hn.2) hxe]
      exact h2
    · rintro ⟨q, ⟨x, ⟨hx, hpx⟩, rfl⟩, hq⟩
      have hxe : x.position = e.position :=
        (show e.position = x.position by simpa using hq).symm
      constructor
      · rw [matches_toProbe h.1 hn.1 e]
        exact List.contains_iff_exists_mem_beq.mpr
          ⟨x.position, List.mem_map.mpr ⟨x, hx, rfl⟩, by simpa using hxe.symm⟩
      · rw [← matches_pos_only (toProbe_nopure hn.2) hxe]
        exact hpx
  | .filterPure c f, h, hn, e => absurd hn not_false
  | .union s1 s2, h, hn, e => by
    rw [toProbe, iterR]
    simp only [Probe.matches]
    rw [matches_toProbe h.1 hn.1 e, matches_toProbe h.2 hn.2 e]
    rw [Bool.eq_iff_iff]
    simp only [Bool.or_eq_true, List.contains_iff_exists_mem_beq]
    constructor
    · rintro (hc | hc) <;>
        [rcases hc with ⟨q, hq, hbeq⟩; rcases hc with ⟨q, hq, hbeq⟩]
      · exact ⟨q, (pos_mem_unionIter _ _ q).mpr (Or.inl hq), hbeq⟩
      · exact ⟨q, (pos_mem_unionIter _ _ q).mpr (Or.inr hq), hbeq⟩
    · rintro ⟨q, hq, hbeq⟩
      rcases (pos_mem_unionIter _ _ q).mp hq with hc | hc
      · exact Or.inl ⟨q, hc, hbeq⟩
      · exact Or.inr ⟨q, hc, hbeq⟩
  | .difference s1 s2, h, hn, e => by
    rw [toProbe, iterR]
    simp only [Probe.matches]
    rw [matches_toProbe h.1 hn.1 e, matches_toProbe h.2 hn.2 e]
    rw [Bool.eq_iff_iff]
    simp only [Bool.and_eq_true, Bool.not_eq_true', List.contains_iff_exists_mem_beq]
    constructor
    · rintro ⟨⟨q, hq, hbeq⟩, h2⟩
      have hqe : e.position = q := by simpa using hbeq
      refine ⟨q, ?_, hbeq⟩
      refine (pos_mem_differenceIter q (iter_desc h.1) (iter_desc h.2)).mpr ⟨hq, ?_⟩
      intro hc
      have : ((iterR s2).map (·.position)).contains e.position = true :=
        List.contains_iff_exists_mem_beq.mpr ⟨q, hc, by simpa using hqe⟩
      rw [this] at h2
      cases h2
    · rintro ⟨q, hq, hbeq⟩
      have hqe : e.position = q := by simpa using hbeq
      rcases (pos_mem_differenceIter q (iter_desc h.1) (iter_desc h.2)).mp hq with ⟨h1, h2⟩
      refine ⟨⟨q, h1, hbeq⟩, ?_⟩
      rcases hb : ((iterR s2).map (·.position)).contains e.position with _ | _
      · exact hb
      · exfalso
        rcases List.contains_iff_exists_mem_beq.mp hb with ⟨q', hq', hbeq'⟩
        have hq'e : e.position = q' := by simpa using hbeq'
        have : q' = q := by omega
        exact h2 (this ▸ hq')

theorem unionIter_self (xs : List IndexEntry) : unionIter xs xs = xs := by
  induction xs with
  | nil => rw [unionIter]
  | cons x xs ih =>
    rw [unionIter, if_neg (lt_irrefl _), if_neg (lt_irrefl _), ih]

theorem differenceIter_self (xs : List IndexEntry) : differenceIter xs xs = [] := by
  induction xs with
  | nil => rw [differenceIter]
  | cons x xs ih =>
    rw [differenceIter, if_neg (lt_irrefl _), if_neg (lt_irrefl _), ih]

theorem differenceIter_nil (xs : List IndexEntry) : differenceIter xs [] = xs := by
  cases xs with
  | nil => rw [differenceIter]
  | cons x xs => rw [differenceIter]

/-- The selection key of `take_latest_revset`'s `Item`: committer timestamp
in milliseconds, then index position as tie-breaker (the derived `Ord`).
`ts` maps a commit id to its committer timestamp (`store.get_commit`). -/
def itemKey (ts : Nat → Int) (e : IndexEntry) : Int × Nat :=
  (ts e.commitId, e.position)

/-- Strict lexicographic order on selection keys. -/
abbrev keyLt (a b : Int × Nat) : Prop :=
  a.1 < b.1 ∨ (a.1 = b.1 ∧ a.2 < b.2)

theorem keyLt_trans {a b c : Int × Nat} (h1 : keyLt a b) (h2 : keyLt b c) : keyLt a c := by
  rcases a with ⟨a1, a2⟩; rcases b with ⟨b1, b2⟩; rcases c with ⟨c1, c2⟩
  simp only [keyLt] at h1 h2 ⊢
  omega

theorem keyLt_trichotomy {a b : Int × Nat} (hne : a ≠ b) : keyLt a b ∨ keyLt b a := by
  rcases a with ⟨a1, a2⟩; rcases b with ⟨b1, b2⟩
  simp only [keyLt]
  by_cases h : a1 = b1
  · subst h
    have hne' : a2 ≠ b2 := fun hc => hne (by rw [hc])
    rcases Nat.lt_or_ge a2 b2 with h | h
    · exact Or.inl (Or.inr ⟨rfl, h⟩)
    · exact Or.inr (Or.inr ⟨rfl, by omega⟩)
  · rcases Int.lt_or_gt_of_ne h with h | h
    · exact Or.inl (Or.inl h)
    · exact Or.inr (Or.inl h)

theorem keyLt_irrefl (a : Int × Nat) : ¬ keyLt a a := by
  rcases a with ⟨a1, a2⟩
  simp only [keyLt]
  omega

/-- The minimum of the heap contents (what `peek_mut` on the
`BinaryHeap<Reverse<Item>>` exposes). -/
def minEntry (ts : Nat → Int) : List IndexEntry → Option IndexEntry
  | [] => none
  | e :: rest =>
    match minEntry ts rest with
    | none => some e
    | some m => if keyLt (itemKey ts m) (itemKey ts e) then some m else some e

theorem minEntry_eq_none {ts : Nat → Int} : ∀ {l : List IndexEntry},
    minEntry ts l = none → l = [] := by
  intro l
  cases l with
  | nil => intro _; rfl
  | cons e rest =>
    intro h
    rw [minEntry] at h
    rcases hm : minEntry ts rest with _ | m'
    · rw [hm] at h; cases h
    · rw [hm] at h
      dsimp only at h
      by_cases hlt : keyLt (itemKey ts m') (itemKey ts e)
      · rw [if_pos hlt] at h; cases h
      · rw [if_neg hlt] at h; cases h

theorem minEntry_mem {ts : Nat → Int} : ∀ {l : List IndexEntry} {m : IndexEntry},
    minEntry ts l = some m → m ∈ l := by
  intro l
  induction l with
  | nil => intro m h; cases h
  | cons e rest ih =>
    intro m h
    rw [minEntry] at h
    rcases hm : minEntry ts rest with _ | m'
    · rw [hm] at h
      dsimp only at h
      cases h
      exact List.mem_cons_self e rest
    · rw [hm] at h
      dsimp only at h
      by_cases hlt : keyLt (itemKey ts m') (itemKey ts e)
      · rw [if_pos hlt] at h
        cases h
        exact List.mem_cons_of_mem e (ih hm)
      · rw [if_neg hlt] at h
        cases h
        exact List.mem_cons_self e rest

theorem minEntry_min {ts : Nat → Int} : ∀ {l : List IndexEntry} {m : IndexEntry},
    minEntry ts l = some m → ∀ h ∈ l, ¬ keyLt (itemKey ts h) (itemKey ts m) := by
  intro l
  induction l with
  | nil => intro m hm; cases hm
  | cons e rest ih =>
    intro m hm h hh
    rw [minEntry] at hm
    rcases hm' : minEntry ts rest with _ | m'
    · rw [hm'] at hm
      dsimp only at hm
      cases hm
      have hrest : rest = [] := minEntry_eq_none hm'
      subst hrest
      rcases List.mem_cons.mp hh with rfl | hh
      · exact keyLt_irrefl _
      · cases hh
    · rw [hm'] at hm
      dsimp only at hm
      by_cases hlt : keyLt (itemKey ts m') (itemKey ts e)
      · rw [if_pos hlt] at hm
        cases hm
        rcases List.mem_cons.mp hh with rfl | hh
        · exact fun hc => keyLt_irrefl _ (keyLt_trans hlt hc)
        · exact ih hm' h hh
      · rw [if_neg hlt] at hm
        cases hm
        rcases List.mem_cons.mp hh with rfl | hh
        · exact keyLt_irrefl _
        · intro hc
          rcases eq_or_ne (itemKey ts h) (itemKey ts m') with heq | hne
          · exact hlt (heq ▸ hc)
          · rcases keyLt_trichotomy hne with h1 | h1
            · exact ih hm' h hh h1
            · exact hlt (keyLt_trans h1 hc)

theorem minEntry_isSome {ts : Nat → Int} {l : List IndexEntry} (h : l ≠ []) :
    ∃ m, minEntry ts l = some m := by
  rcases l with _ | ⟨e, rest⟩
  · exact absurd rfl h
  · rw [minEntry]
    rcases minEntry ts rest with _ | m'
    · exact ⟨e, rfl⟩
    · by_cases hlt : keyLt (itemKey ts m') (itemKey ts e)
      · exact ⟨m', if_pos hlt⟩
      · exact ⟨e, if_neg hlt⟩

/-- One trip of `take_latest_revset`'s main loop: if the heap minimum is
smaller than the incoming item, replace it. The `none` branch mirrors the
`unwrap` on `peek_mut`, which is unreachable when `count > 0` because the
loop only runs when the heap was filled with `count > 0` items. -/
def latestStep (ts : Nat → Int) (heap : List IndexEntry) (item : IndexEntry) :
    List IndexEntry :=
  match minEntry ts heap with
  | none => heap
  | some m =>
    if keyLt (itemKey ts m) (itemKey ts item) then item :: heap.erase m else heap

/-- Insertion step of the final `sort_unstable_by_key(Reverse(position))`. -/
def insertByPosDesc (e : IndexEntry) : List IndexEntry → List IndexEntry
  | [] => [e]
  | x :: xs =>
    if x.position < e.position then e :: x :: xs else x :: insertByPosDesc e xs

/-- Sort by descending index position. -/
def sortByPosDesc (l : List IndexEntry) : List IndexEntry :=
  l.foldr insertByPosDesc []

/-- `EvaluationContext::take_latest_revset`: empty for `count = 0`;
otherwise fill a min-heap with the first `count` candidates, replace the
minimum whenever a later candidate has a greater key, and finally sort the
kept entries by descending position. -/
def take_latest_revset (ts : Nat → Int) (candidates : List IndexEntry)
    (count : Nat) : List IndexEntry :=
  if count = 0 then []
  else sortByPosDesc ((candidates.drop count).foldl (latestStep ts) (candidates.take count))

theorem insertByPosDesc_perm (e : IndexEntry) (l : List IndexEntry) :
    (insertByPosDesc e l).Perm (e :: l) := by
  induction l with
  | nil => exact List.Perm.refl _
  | cons x xs ih =>
    rw [insertByPosDesc]
    by_cases h : x.position < e.position
    · rw [if_pos h]
    · rw [if_neg h]
      exact (ih.cons x).trans (List.Perm.swap e x xs)

theorem sortByPosDesc_perm (l : List IndexEntry) : (sortByPosDesc l).Perm l := by
  induction l with
  | nil => exact List.Perm.refl _
  | cons x xs ih =>
    exact (insertByPosDesc_perm x (sortByPosDesc xs)).trans (ih.cons x)

theorem insertByPosDesc_sorted {e : IndexEntry} {l : List IndexEntry}
    (h : l.Pairwise (fun a b => b.position ≤ a.position)) :
    (insertByPosDesc e l).Pairwise (fun a b => b.position ≤ a.position) := by
  induction l with
  | nil => simp [insertByPosDesc]
  | cons x xs ih =>
    rcases List.pairwise_cons.mp h with ⟨hall, h'⟩
    rw [insertByPosDesc]
    by_cases hx : x.position < e.position
    · rw [if_pos hx]
      refine List.pairwise_cons.mpr ⟨?_, h⟩
      intro z hz
      rcases List.mem_cons.mp hz with rfl | hz
      · omega
      · have := hall z hz
        omega
    · rw [if_neg hx]
      refine List.pairwise_cons.mpr ⟨?_, ih h'⟩
      intro z hz
      have := (insertByPosDesc_perm e xs).mem_iff.mp hz
      rcases List.mem_cons.mp this with rfl | hz'
      · omega
      · exact hall z hz'

theorem sortByPosDesc_sorted (l : List IndexEntry) :
    (sortByPosDesc l).Pairwise (fun a b => b.position ≤ a.position) := by
  induction l with
  | nil => simp [sortByPosDesc]
  | cons x xs ih => exact insertByPosDesc_sorted ih

theorem sortByPosDesc_desc {l : List IndexEntry}
    (h : (l.map (·.position)).Nodup) : Desc (sortByPosDesc l) := by
  have hs := sortByPosDesc_sorted l
  have hn : ((sortByPosDesc l).map (·.position)).Nodup :=
    (List.Perm.map (·.position) (sortByPosDesc_perm l)).nodup_iff.mpr h
  have hne : (sortByPosDesc l).Pairwise (fun a b => a.position ≠ b.position) :=
    List.pairwise_map.mp hn
  exact (hs.and hne).imp (fun hab => by omega)

theorem subperm_cons_both {a : IndexEntry} {l1 l2 : List IndexEntry}
    (h : l1.Subperm l2) : (a :: l1).Subperm (a :: l2) := by
  rcases h with ⟨l, hp, hs⟩
  exact ⟨a :: l, hp.cons a, hs.cons₂ a⟩

theorem subperm_map_pos {l1 l2 : List IndexEntry} (h : l1.Subperm l2) :
    (l1.map (·.position)).Subperm (l2.map (·.position)) := by
  rcases h with ⟨l, hp, hs⟩
  exact ⟨l.map (·.position), hp.map _, hs.map _⟩

theorem subperm_nodup {α : Type} {l1 l2 : List α} (h : l1.Subperm l2)
    (hn : l2.Nodup) : l1.Nodup := by
  rcases h with ⟨l, hp, hs⟩
  exact hp.nodup_iff.mp (hs.nodup hn)

/-- Invariant of `take_latest_revset`'s replacement loop: after any number
of steps the heap holds, among the candidates seen so far, exactly
`min count seen` entries, and every discarded candidate has a strictly
smaller key than everything in the heap. -/
theorem latest_fold_inv (ts : Nat → Int) (count : Nat) (hc : 0 < count) :
    ∀ (rest done heap : List IndexEntry),
      heap.length = min count done.length →
      heap.Subperm done →
      (∀ y ∈ done, y ∈ heap ∨ ∀ h ∈ heap, keyLt (itemKey ts y) (itemKey ts h)) →
      ((done ++ rest).map (·.position)).Nodup →
      (count ≤ done.length ∨ rest = []) →
      (rest.foldl (latestStep ts) heap).length = min count (done ++ rest).length ∧
      (rest.foldl (latestStep ts) heap).Subperm (done ++ rest) ∧
      (∀ y ∈ done ++ rest, y ∈ rest.foldl (latestStep ts) heap ∨
        ∀ h ∈ rest.foldl (latestStep ts) heap,
          keyLt (itemKey ts y) (itemKey ts h)) := by
  intro rest
  induction rest with
  | nil =>
    intro done heap hlen hsub hdom hnod hcnt
    simp only [List.foldl_nil, List.append_nil]
    exact ⟨hlen, hsub, hdom⟩
  | cons i rest' ih =>
    intro done heap hlen hsub hdom hnod hcnt
    have hcnt' : count ≤ done.length := by
      rcases hcnt with h | h
      · exact h
      · cases h
    have hheap_len : heap.length = count := by omega
    have hne : heap ≠ [] := by
      intro hemp
      rw [hemp] at hheap_len
      simp at hheap_len
      omega
    rcases @minEntry_isSome ts _ hne with ⟨m, hm⟩
    have hmm : m ∈ heap := minEntry_mem hm
    have hmin := minEntry_min hm
    -- positions are pairwise distinct among done, i, rest'
    have hnod_done : (done.map (·.position)).Nodup := by
      rw [List.map_append] at hnod
      exact (List.Nodup.of_append_left hnod)
    have hheap_posnodup : (heap.map (·.position)).Nodup :=
      subperm_nodup (subperm_map_pos hsub) hnod_done
    have hheap_nodup : heap.Nodup := List.Nodup.of_map _ hheap_posnodup
    have hi_not_done : ∀ d ∈ done, d.position ≠ i.position := by
      intro d hd hc'
      rw [List.map_append] at hnod
      have hdisj := List.disjoint_of_nodup_append hnod
      exact hdisj (List.mem_map.mpr ⟨d, hd, rfl⟩)
        (by
          rw [hc']
          exact List.mem_map.mpr ⟨i, List.mem_cons_self i rest', rfl⟩)
    have hi_heap_keys : ∀ h ∈ heap, itemKey ts h ≠ itemKey ts i := by
      intro h hh hc'
      have : h.position = i.position := congrArg Prod.snd hc'
      exact hi_not_done h (hsub.subset hh) this
    have hi_not_heap : i ∉ heap := fun hih =>
      hi_heap_keys i hih rfl
    have hstrict : ∀ h ∈ heap, h ≠ m → keyLt (itemKey ts m) (itemKey ts h) := by
      intro h hh hne'
      have hkne : itemKey ts h ≠ itemKey ts m := by
        intro hc'
        have : h.position = m.position := congrArg Prod.snd hc'
        exact hne' (List.inj_on_of_nodup_map hheap_posnodup hh hmm this)
      rcases keyLt_trichotomy hkne with h1 | h1
      · exact absurd h1 (hmin h hh)
      · exact h1
    rw [List.foldl_cons]
    rw [latestStep, hm]
    have hlist_eq : (done ++ [i]) ++ rest' = done ++ i :: rest' := by
      rw [List.append_assoc]
      rfl
    by_cases hki : keyLt (itemKey ts m) (itemKey ts i)
    · simp only [if_pos hki]
      have hres := ih (done ++ [i]) (i :: heap.erase m)
        (by
          simp only [List.length_cons, List.length_append, List.length_singleton]
          rw [List.length_erase_of_mem hmm]
          omega)
        (by
          refine (subperm_cons_both ?_).trans (List.perm_append_singleton i done).symm.subperm
          exact ((List.erase_sublist m heap).subperm).trans hsub)
        (by
          intro y hy
          rcases List.mem_append.mp hy with hy | hy
          · rcases hdom y hy with hyh | hyd
            · by_cases hym : y = m
              · subst hym
                right
                intro h hh
                rcases List.mem_cons.mp hh with rfl | hh
                · exact hki
                · have := (hheap_nodup.mem_erase_iff).mp hh
                  exact hstrict h this.2 this.1
              · left
                exact List.mem_cons_of_mem i ((hheap_nodup.mem_erase_iff).mpr
                  ⟨hym, hyh⟩)
            · right
              intro h hh
              rcases List.mem_cons.mp hh with rfl | hh
              · exact keyLt_trans (hyd m hmm) hki
              · exact hyd h ((List.erase_sublist m heap).subset hh)
          · have hyi : y = i := List.mem_singleton.mp hy
            subst hyi
            left
            exact List.mem_cons_self _ _
        )
        (by rw [hlist_eq]; exact hnod)
        (by
          left
          simp only [List.length_append, List.length_singleton]
          omega)
      rw [hlist_eq] at hres
      exact hres
    · simp only [if_neg hki]
      have hkilt : keyLt (itemKey ts i) (itemKey ts m) := by
        rcases keyLt_trichotomy (Ne.symm (hi_heap_keys m hmm)) with h1 | h1
        · exact h1
        · exact absurd h1 hki
      have hres := ih (done ++ [i]) heap
        (by
          simp only [List.length_append, List.length_singleton]
          omega)
        (hsub.trans (List.sublist_append_left done [i]).subperm)
        (by
          intro y hy
          rcases List.mem_append.mp hy with hy | hy
          · exact hdom y hy
          · have hyi : y = i := List.mem_singleton.mp hy
            subst hyi
            right
            intro h hh
            by_cases hhm : h = m
            · subst hhm
              exact hkilt
            · exact keyLt_trans hkilt (hstrict h hh hhm)
        )
        (by rw [hlist_eq]; exact hnod)
        (by
          left
          simp only [List.length_append, List.length_singleton]
          omega)
      rw [hlist_eq] at hres
      exact hres

/-- Functional correctness of `take_latest_revset` over strictly descending
candidates: the result keeps `min count n` entries, is strictly descending,
is drawn from the candidates, and every discarded candidate has a strictly
smaller `(timestamp, position)` key than every kept one. -/
theorem take_latest_spec (ts : Nat → Int) (candidates : List IndexEntry)
    (count : Nat) (hdesc : Desc candidates) :
    (take_latest_revset ts candidates count).length = min count candidates.length ∧
    Desc (take_latest_revset ts candidates count) ∧
    (take_latest_revset ts candidates count).Subperm candidates ∧
    (∀ x ∈ take_latest_revset ts candidates count, ∀ y ∈ candidates,
      y ∉ take_latest_revset ts candidates count →
      keyLt (itemKey ts y) (itemKey ts x)) := by
  by_cases hc : count = 0
  · subst hc
    rw [take_latest_revset, if_pos rfl]
    refine ⟨by simp, List.Pairwise.nil, List.nil_subperm, ?_⟩
    intro x hx
    cases hx
  · have hc' : 0 < count := Nat.pos_of_ne_zero hc
    rw [take_latest_revset, if_neg hc]
    have hnod : ((candidates.take count ++ candidates.drop count).map
        (·.position)).Nodup := by
      rw [List.take_append_drop]
      exact desc_nodup hdesc
    have hinv := latest_fold_inv ts count hc' (candidates.drop count)
      (candidates.take count) (candidates.take count)
      (by
        rw [List.length_take]
        omega)
      (List.Subperm.refl _)
      (fun y hy => Or.inl hy)
      hnod
      (by
        rcases le_or_lt count candidates.length with h | h
        · left
          rw [List.length_take]
          omega
        · right
          exact List.drop_eq_nil_of_le (by omega))
    rw [List.take_append_drop] at hinv
    rcases hinv with ⟨hlen, hsub, hdom⟩
    set final := (candidates.drop count).foldl (latestStep ts) (candidates.take count)
      with hfinal
    have hperm : (sortByPosDesc final).Perm final := sortByPosDesc_perm final
    refine ⟨?_, ?_, ?_, ?_⟩
    · rw [hperm.length_eq]
      exact hlen
    · exact sortByPosDesc_desc
        (subperm_nodup (subperm_map_pos hsub) (desc_nodup hdesc))
    · exact hperm.subperm.trans hsub
    · intro x hx y hy hynot
      have hxf : x ∈ final := hperm.mem_iff.mp hx
      have hynotf : y ∉ final := fun hc2 => hynot (hperm.mem_iff.mpr hc2)
      rcases hdom y hy with h | h
      · exact absurd h hynotf
      · exact h x hxf

/-- `RevsetError`, with payloads abstracted to numbers (the engine never
inspects them). -/
inductive RevsetError where
  | NoSuchRevision (name : Nat)
  | AmbiguousIdPrefix (pfx : Nat)
  | StoreError (inner : Nat)
deriving DecidableEq, Repr

/-- The data `EvaluationContext` reads from its collaborators:
`entry_by_id` lookups, the visible heads, the materialised walk of
`ancestors(visible_heads)` (the `All` arm), the index's `heads` function,
and committer timestamps from the store. -/
structure EvalCtx where
  entryById : Nat → Option IndexEntry
  visibleHeads : List Nat
  allEntries : List IndexEntry
  headsFn : List Nat → List Nat
  store : Nat → Int

/-- `Vec::dedup`: remove consecutive repeated entries (one representative
of each run of equal entries is kept). -/
def dedupAdj : List IndexEntry → List IndexEntry
  | [] => []
  | [x] => [x]
  | x :: y :: rest =>
    if x = y then dedupAdj (y :: rest) else x :: dedupAdj (y :: rest)

/-- The entry lookups of `revset_for_commit_ids`: each id is resolved with
`entry_by_id(id).unwrap()`; a missing id is the `unwrap` panic, modelled as
`none`. -/
def lookupAll (entryById : Nat → Option IndexEntry) : List Nat → Option (List IndexEntry)
  | [] => some []
  | id :: rest =>
    match entryById id with
    | none => none
    | some e =>
      match lookupAll entryById rest with
      | none => none
      | some es => some (e :: es)

/-- `EvaluationContext::revset_for_commit_ids`: look up every id, sort by
descending position, `dedup`. -/
def revset_for_commit_ids (entryById : Nat → Option IndexEntry)
    (ids : List Nat) : Option (List IndexEntry) :=
  match lookupAll entryById ids with
  | none => none
  | some es => some (dedupAdj (sortByPosDesc es))

/-- The reachability loop of the `DagRange` arm, over candidates in
ascending position order. -/
def dagRangeLoop (reachable : List Nat) : List IndexEntry → List IndexEntry
  | [] => []
  | c :: rest =>
    if reachable.contains c.position ||
        c.parentPositions.any (fun pp => reachable.contains pp) then
      c :: dagRangeLoop (c.position :: reachable) rest
    else dagRangeLoop reachable rest

/-- The resolved expression tree (`RevsetExpression`) as far as the
compiler consumes it.  External collaborations are embedded as data:
`rangeW` carries the entry stream the index's `walk_revs` returns;
`childrenOf`/`dagRangeE`/`rootsOf` carry the derived sub-expression
(`roots.descendants()`, `heads.ancestors()`, `candidates.connected()`) as
an explicit expression argument; `err` stands for a sub-expression whose
evaluation fails with the given error (modelled from the spec: the errors
come from resolution or the store, collaborators outside this file);
`symbol` stands for every unresolved symbolic variant, which panics. -/
inductive Expr where
  | symbol
  | none'
  | all'
  | commits (ids : List Nat)
  | visibleHeads
  | childrenOf (roots candidates : Expr)
  | rangeW (walk : List IndexEntry)
  | dagRangeE (roots candidates : Expr)
  | headsOf (candidates : Expr)
  | rootsOf (candidates connected : Expr)
  | latest (candidates : Expr) (count : Nat)
  | filterP (f : IndexEntry → Bool)
  | asFilter (x : Expr)
  | present (x : Expr)
  | err (e : RevsetError)
  | notIn (x : Expr)
  | union (a b : Expr)
  | intersection (a b : Expr)
  | difference (a b : Expr)

/-- Propagation of `?` on a sub-evaluation that may also panic. -/
def bindE (x : Option (Except RevsetError RSet))
    (f : RSet → Option (Except RevsetError RSet)) :
    Option (Except RevsetError RSet) :=
  match x with
  | none => none
  | some (.error e) => some (.error e)
  | some (.ok s) => f s

/-- `EvaluationContext::evaluate`: compile an expression to an internal
set; `none` is a panic (unresolved symbol, or a missing commit id inside
`revset_for_commit_ids`). -/
def evalE (ctx : EvalCtx) : Expr → Option (Except RevsetError RSet)
  | .symbol => none
  | .none' => some (.ok (.eager []))
  | .all' => some (.ok (.walk ctx.allEntries))
  | .commits ids =>
    match revset_for_commit_ids ctx.entryById ids with
    | none => none
    | some es => some (.ok (.eager es))
  | .visibleHeads =>
    match revset_for_commit_ids ctx.entryById ctx.visibleHeads with
    | none => none
    | some es => some (.ok (.eager es))
  | .childrenOf roots candidates =>
    bindE (evalE ctx roots) (fun rs =>
      bindE (evalE ctx candidates) (fun cs =>
        some (.ok (.children rs cs))))
  | .rangeW walk => some (.ok (.walk walk))
  | .dagRangeE roots candidates =>
    bindE (evalE ctx roots) (fun rs =>
      bindE (evalE ctx candidates) (fun cs =>
        some (.ok (.eager
          ((dagRangeLoop ((iterR rs).map (·.position))
            ((iterR cs).reverse)).reverse)))))
  | .headsOf candidates =>
    bindE (evalE ctx candidates) (fun cs =>
      match revset_for_commit_ids ctx.entryById
          (ctx.headsFn ((iterR cs).map (·.commitId))) with
      | none => none
      | some es => some (.ok (.eager es)))
  | .rootsOf candidates connected =>
    bindE (evalE ctx connected) (fun conn =>
      bindE (evalE ctx candidates) (fun cs =>
        some (.ok (.eager ((iterR cs).filter (fun c =>
          !(c.parentPositions.any (fun pp =>
            (((iterR conn).map (·.position))).contains pp))))))))
  | .latest candidates count =>
    bindE (evalE ctx candidates) (fun cs =>
      some (.ok (.eager (take_latest_revset ctx.store (iterR cs) count))))
  | .filterP f => some (.ok (.filterPure (.walk ctx.allEntries) f))
  | .asFilter x => evalE ctx x
  | .present x =>
    match evalE ctx x with
    | none => none
    | some (.ok s) => some (.ok s)
    | some (.error (.NoSuchRevision _)) => some (.ok (.eager []))
    | some (.error (.AmbiguousIdPrefix p)) => some (.error (.AmbiguousIdPrefix p))
    | some (.error (.StoreError s)) => some (.error (.StoreError s))
  | .err e => some (.error e)
  | .notIn x =>
    bindE (evalE ctx x) (fun s2 =>
      some (.ok (.difference (.walk ctx.allEntries) s2)))
  | .union a b =>
    bindE (evalE ctx a) (fun s1 =>
      bindE (evalE ctx b) (fun s2 => some (.ok (.union s1 s2))))
  | .intersection a b =>
    bindE (evalE ctx a) (fun s1 =>
      bindE (evalE ctx b) (fun s2 => some (.ok (.filterSet s1 s2))))
  | .difference a b =>
    bindE (evalE ctx a) (fun s1 =>
      bindE (evalE ctx b) (fun s2 => some (.ok (.difference s1 s2))))

/-- Well-formed expression: every embedded external walk is strictly
descending, as `walk_revs` guarantees. -/
@[reducible]
def WFe : Expr → Prop
  | .symbol => True
  | .none' => True
  | .all' => True
  | .commits _ => True
  | .visibleHeads => True
  | .childrenOf a b => WFe a ∧ WFe b
  | .rangeW walk => Desc walk
  | .dagRangeE a b => WFe a ∧ WFe b
  | .headsOf a => WFe a
  | .rootsOf a b => WFe a ∧ WFe b
  | .latest a _ => WFe a
  | .filterP _ => True
  | .asFilter a => WFe a
  | .present a => WFe a
  | .err _ => True
  | .notIn a => WFe a
  | .union a b => WFe a ∧ WFe b
  | .intersection a b => WFe a ∧ WFe b
  | .difference a b => WFe a ∧ WFe b

/-- Well-formed context: the `All` walk is strictly descending, and the
index is consistent (a position determines its entry). -/
structure WFCtx (ctx : EvalCtx) : Prop where
  allDesc : Desc ctx.allEntries
  posInj : ∀ id1 id2 e1 e2, ctx.entryById id1 = some e1 →
    ctx.entryById id2 = some e2 → e1.position = e2.position → e1 = e2

theorem bindE_ok {x : Option (Except RevsetError RSet)}
    {f : RSet → Option (Except RevsetError RSet)} {S : RSet}
    (h : bindE x f = some (.ok S)) :
    ∃ s, x = some (.ok s) ∧ f s = some (.ok S) := by
  rcases x with _ | ⟨e | s⟩
  · cases h
  · rw [bindE] at h
    cases h
  · exact ⟨s, rfl, h⟩

theorem lookupAll_mem {entryById : Nat → Option IndexEntry} :
    ∀ {ids : List Nat} {es : List IndexEntry},
      lookupAll entryById ids = some es →
      ∀ e ∈ es, ∃ id, entryById id = some e := by
  intro ids
  induction ids with
  | nil =>
    intro es h e he
    rw [lookupAll] at h
    cases h
    cases he
  | cons id rest ih =>
    intro es h e he
    rw [lookupAll] at h
    rcases h1 : entryById id with _ | e1
    · rw [h1] at h; cases h
    · rw [h1] at h
      dsimp only at h
      rcases h2 : lookupAll entryById rest with _ | es'
      · rw [h2] at h; cases h
      · rw [h2] at h
        dsimp only at h
        cases h
        rcases List.mem_cons.mp he with rfl | he'
        · exact ⟨id, h1⟩
        · exact ih h2 e he'

theorem lookupAll_some {entryById : Nat → Option IndexEntry} :
    ∀ {ids : List Nat}, (∀ id ∈ ids, (entryById id).isSome) →
      ∃ es, lookupAll entryById ids = some es := by
  intro ids
  induction ids with
  | nil => intro _; exact ⟨[], rfl⟩
  | cons id rest ih =>
    intro h
    rcases h1 : entryById id with _ | e1
    · have := h id (List.mem_cons_self id rest)
      rw [h1] at this
      cases this
    · rcases ih (fun i hi => h i (List.mem_cons_of_mem id hi)) with ⟨es, hes⟩
      exact ⟨e1 :: es, by rw [lookupAll, h1, hes]⟩

theorem lookupAll_none {entryById : Nat → Option IndexEntry} :
    ∀ {ids : List Nat}, (∃ id ∈ ids, entryById id = none) →
      lookupAll entryById ids = none := by
  intro ids
  induction ids with
  | nil => rintro ⟨id, h, _⟩; cases h
  | cons id rest ih =>
    rintro ⟨i, hi, hnone⟩
    rw [lookupAll]
    rcases List.mem_cons.mp hi with rfl | hi'
    · rw [hnone]
    · rcases h1 : entryById id with _ | e1
      · rfl
      · rw [ih ⟨i, hi', hnone⟩]

theorem dedupAdj_sublist : ∀ (l : List IndexEntry), (dedupAdj l).Sublist l := by
  intro l
  induction l using dedupAdj.induct with
  | case1 => rw [dedupAdj]
  | case2 x => rw [dedupAdj]
  | case3 y rest ih =>
    rw [dedupAdj, if_pos rfl]
    exact ih.trans (List.sublist_cons_self y (y :: rest))
  | case4 x y rest hne ih =>
    rw [dedupAdj, if_neg hne]
    exact ih.cons₂ x

/-- `dedup` after a descending-by-position sort yields a strictly
descending list whenever equal positions mean equal entries. -/
theorem dedupAdj_desc : ∀ {l : List IndexEntry},
    l.Pairwise (fun a b => b.position ≤ a.position) →
    (∀ a ∈ l, ∀ b ∈ l, a.position = b.position → a = b) →
    Desc (dedupAdj l) := by
  intro l
  induction l using dedupAdj.induct with
  | case1 => intro _ _; rw [dedupAdj]; exact List.Pairwise.nil
  | case2 x => intro _ _; simp [dedupAdj]
  | case3 y rest ih =>
    intro hsort hdet
    rw [dedupAdj, if_pos rfl]
    refine ih (List.pairwise_cons.mp hsort).2 ?_
    intro a ha b hb
    exact hdet a (List.mem_cons_of_mem y ha) b (List.mem_cons_of_mem y hb)
  | case4 x y rest hne ih =>
    intro hsort hdet
    rw [dedupAdj, if_neg hne]
    rcases List.pairwise_cons.mp hsort with ⟨hall, hsort'⟩
    refine List.pairwise_cons.mpr ⟨?_, ih hsort' (fun a ha b hb =>
      hdet a (List.mem_cons_of_mem x ha) b (List.mem_cons_of_mem x hb))⟩
    intro z hz
    have hzmem : z ∈ y :: rest := (dedupAdj_sublist (y :: rest)).subset hz
    have hle : z.position ≤ x.position := hall z hzmem
    rcases Nat.lt_or_ge z.position x.position with hcase | hcase
    · exact hcase
    · exfalso
      have hzx : z = x := hdet z (List.mem_cons_of_mem x hzmem) x
        (List.mem_cons_self x _) (by omega)
      rcases List.mem_cons.mp hzmem with heq2 | hz'
      · exact hne (hzx.symm.trans heq2)
      · have h1 := (List.pairwise_cons.mp hsort').1 z hz'
        have h2 := hall y (List.mem_cons_self y rest)
        have hzy : z = y := hdet z (List.mem_cons_of_mem x hzmem) y
          (List.mem_cons_of_mem x (List.mem_cons_self y rest)) (by omega)
        exact hne (hzx.symm.trans hzy)

/-- A successful `revset_for_commit_ids` result is strictly descending. -/
theorem revset_for_commit_ids_desc {entryById : Nat → Option IndexEntry}
    (hinj : ∀ id1 id2 e1 e2, entryById id1 = some e1 →
      entryById id2 = some e2 → e1.position = e2.position → e1 = e2)
    {ids : List Nat} {es : List IndexEntry}
    (h : revset_for_commit_ids entryById ids = some es) : Desc es := by
  rw [revset_for_commit_ids] at h
  rcases h0 : lookupAll entryById ids with _ | es0
  · rw [h0] at h; cases h
  · rw [h0] at h
    dsimp only at h
    cases h
    refine dedupAdj_desc (sortByPosDesc_sorted es0) ?_
    intro a ha b hb hab
    have hperm := sortByPosDesc_perm es0
    rcases lookupAll_mem h0 a (hperm.mem_iff.mp ha) with ⟨id1, h1⟩
    rcases lookupAll_mem h0 b (hperm.mem_iff.mp hb) with ⟨id2, h2⟩
    exact hinj id1 id2 a b h1 h2 hab

theorem dagRangeLoop_sublist : ∀ (reachable : List Nat) (l : List IndexEntry),
    (dagRangeLoop reachable l).Sublist l := by
  intro reachable l
  induction l generalizing reachable with
  | nil => exact List.Sublist.refl _
  | cons c rest ih =>
    rw [dagRangeLoop]
    by_cases h : (reachable.contains c.position ||
        c.parentPositions.any (fun pp => reachable.contains pp)) = true
    · rw [if_pos h]
      exact (ih _).cons₂ c
    · rw [if_neg h]
      exact (ih _).cons c

/-- Every set the compiler returns (without panicking or failing) is
well-formed. -/
theorem evalE_wf {ctx : EvalCtx} (hctx : WFCtx ctx) :
    ∀ {e : Expr} {S : RSet}, WFe e → evalE ctx e = some (.ok S) → WF S
  | .symbol, S, _, h => by cases h
  | .none', S, _, h => by
    rw [evalE] at h
    cases h
    exact List.Pairwise.nil
  | .all', S, _, h => by
    rw [evalE] at h
    cases h
    exact hctx.allDesc
  | .commits ids, S, _, h => by
    rw [evalE] at h
    rcases h0 : revset_for_commit_ids ctx.entryById ids with _ | es
    · rw [h0] at h; cases h
    · rw [h0] at h
      dsimp only at h
      cases h
      exact revset_for_commit_ids_desc hctx.posInj h0
  | .visibleHeads, S, _, h => by
    rw [evalE] at h
    rcases h0 : revset_for_commit_ids ctx.entryById ctx.visibleHeads with _ | es
    · rw [h0] at h; cases h
    · rw [h0] at h
      dsimp only at h
      cases h
      exact revset_for_commit_ids_desc hctx.posInj h0
  | .childrenOf roots candidates, S, hw, h => by
    rw [evalE] at h
    rcases bindE_ok h with ⟨rs, h1, h2⟩
    rcases bindE_ok h2 with ⟨cs, h3, h4⟩
    cases h4
    exact ⟨evalE_wf hctx hw.1 h1, evalE_wf hctx hw.2 h3⟩
  | .rangeW walk, S, hw, h => by
    rw [evalE] at h
    cases h
    exact hw
  | .dagRangeE roots candidates, S, hw, h => by
    rw [evalE] at h
    rcases bindE_ok h with ⟨rs, h1, h2⟩
    rcases bindE_ok h2 with ⟨cs, h3, h4⟩
    cases h4
    show Desc _
    have hsub : ((dagRangeLoop ((iterR rs).map (·.position))
        ((iterR cs).reverse)).reverse).Sublist (iterR cs) := by
      have := (dagRangeLoop_sublist ((iterR rs).map (·.position))
        ((iterR cs).reverse)).reverse
      rwa [List.reverse_reverse] at this
    exact List.Pairwise.sublist hsub (iter_desc (evalE_wf hctx hw.2 h3))
  | .headsOf candidates, S, hw, h => by
    rw [evalE] at h
    rcases bindE_ok h with ⟨cs, h1, h2⟩
    rcases h0 : revset_for_commit_ids ctx.entryById
        (ctx.headsFn ((iterR cs).map (·.commitId))) with _ | es
    · rw [h0] at h2; cases h2
    · rw [h0] at h2
      dsimp only at h2
      cases h2
      exact revset_for_commit_ids_desc hctx.posInj h0
  | .rootsOf candidates connected, S, hw, h => by
    rw [evalE] at h
    rcases bindE_ok h with ⟨conn, h1, h2⟩
    rcases bindE_ok h2 with ⟨cs, h3, h4⟩
    cases h4
    show Desc _
    exact List.Pairwise.sublist (List.filter_sublist _) (iter_desc (evalE_wf hctx hw.1 h3))
  | .latest candidates count, S, hw, h => by
    rw [evalE] at h
    rcases bindE_ok h with ⟨cs, h1, h2⟩
    cases h2
    have hw' : WFe candidates := hw
    exact (take_latest_spec ctx.store (iterR cs) count
      (iter_desc (evalE_wf hctx hw' h1))).2.1
  | .filterP f, S, hw, h => by
    rw [evalE] at h
    cases h
    exact hctx.allDesc
  | .asFilter x, S, hw, h => by
    rw [evalE] at h
    have hw' : WFe x := hw
    exact evalE_wf hctx hw' h
  | .present x, S, hw, h => by
    rw [evalE] at h
    rcases hx : evalE ctx x with _ | ⟨e | s⟩
    · rw [hx] at h; cases h
    · rw [hx] at h
      rcases e with n | p | st
      · dsimp only at h
        cases h
        exact List.Pairwise.nil
      · dsimp only at h
        cases h
      · dsimp only at h
        cases h
    · rw [hx] at h
      dsimp only at h
      cases h
      have hw' : WFe x := hw
      exact evalE_wf hctx hw' hx
  | .err e, S, hw, h => by
    rw [evalE] at h
    cases h
  | .notIn x, S, hw, h => by
    rw [evalE] at h
    rcases bindE_ok h with ⟨s2, h1, h2⟩
    cases h2
    have hw' : WFe x := hw
    exact ⟨hctx.allDesc, evalE_wf hctx hw' h1⟩
  | .union a b, S, hw, h => by
    rw [evalE] at h
    rcases bindE_ok h with ⟨s1, h1, h2⟩
    rcases bindE_ok h2 with ⟨s2, h3, h4⟩
    cases h4
    exact ⟨evalE_wf hctx hw.1 h1, evalE_wf hctx hw.2 h3⟩
  | .intersection a b, S, hw, h => by
    rw [evalE] at h
    rcases bindE_ok h with ⟨s1, h1, h2⟩
    rcases bindE_ok h2 with ⟨s2, h3, h4⟩
    cases h4
    exact ⟨evalE_wf hctx hw.1 h1, evalE_wf hctx hw.2 h3⟩
  | .difference a b, S, hw, h => by
    rw [evalE] at h
    rcases bindE_ok h with ⟨s1, h1, h2⟩
    rcases bindE_ok h2 with ⟨s2, h3, h4⟩
    cases h4
    exact ⟨evalE_wf hctx hw.1 h1, evalE_wf hctx hw.2 h3⟩

/-! ## IdIndex

Keys (`ObjectId`s) are modelled as their hexadecimal digit sequences; a
whole-byte id has an even number of digits.  Comparing the byte strings
(`as_bytes`) of two such ids is comparing their digit sequences
lexicographically, which `ltLex` does.  A `HexPrefix` is a digit sequence
of any parity; `min_prefix_bytes` is the prefix padded to even length with
a zero digit (`minDigits`), and `matches` is hex-prefix matching
(`List.isPrefixOf` on digits). -/

/-- Strict lexicographic order on digit sequences (= byte-string order of
whole-byte ids). -/
def ltLex : List Nat → List Nat → Bool
  | [], [] => false
  | [], _ :: _ => true
  | _ :: _, [] => false
  | a :: as, b :: bs => if a < b then true else if b < a then false else ltLex as bs

theorem ltLex_irrefl : ∀ (a : List Nat), ltLex a a = false := by
  intro a
  induction a with
  | nil => rfl
  | cons d rest ih => rw [ltLex, if_neg (lt_irrefl d), if_neg (lt_irrefl d), ih]

theorem ltLex_trans : ∀ {a b c : List Nat},
    ltLex a b = true → ltLex b c = true → ltLex a c = true := by
  intro a
  induction a with
  | nil =>
    intro b c h1 h2
    cases b with
    | nil => cases c with
      | nil => exact h2
      | cons y ys => rfl
    | cons x xs => cases c with
      | nil => rw [ltLex] at h2; cases h2
      | cons y ys => rfl
  | cons d rest ih =>
    intro b c h1 h2
    cases b with
    | nil => rw [ltLex] at h1; cases h1
    | cons x xs =>
      cases c with
      | nil => rw [ltLex] at h2; cases h2
      | cons y ys =>
        rw [ltLex] at h1 h2 ⊢
        by_cases hdx : d < x
        · by_cases hxy : x < y
          · rw [if_pos (by omega)]
          · rw [if_neg hxy] at h2
            by_cases hyx : y < x
            · rw [if_pos hyx] at h2; cases h2
            · rw [if_pos (by omega)]
        · rw [if_neg hdx] at h1
          by_cases hxd : x < d
          · rw [if_pos hxd] at h1; cases h1
          · rw [if_neg hxd] at h1
            have hdxe : d = x := by omega
            subst hdxe
            by_cases hdy : d < y
            · rw [if_pos hdy]
            · rw [if_neg hdy] at h2 ⊢
              by_cases hyd : y < d
              · rw [if_pos hyd] at h2; cases h2
              · rw [if_neg hyd] at h2 ⊢
                exact ih h1 h2

theorem ltLex_flip : ∀ {a b : List Nat},
    ltLex a b = false → a = b ∨ ltLex b a = true := by
  intro a
  induction a with
  | nil =>
    intro b h
    cases b with
    | nil => exact Or.inl rfl
    | cons y ys => rw [ltLex] at h; cases h
  | cons d rest ih =>
    intro b h
    cases b with
    | nil => exact Or.inr rfl
    | cons y ys =>
      rw [ltLex] at h ⊢
      by_cases hdy : d < y
      · rw [if_pos hdy] at h; cases h
      · rw [if_neg hdy] at h
        by_cases hyd : y < d
        · exact Or.inr (by rw [if_pos hyd])
        · rw [if_neg hyd] at h
          have : d = y := by omega
          subst this
          rcases ih h with rfl | h'
          · exact Or.inl rfl
          · exact Or.inr (by rw [if_neg hyd, if_neg hyd]; exact h')

theorem ltLex_asymm {a b : List Nat} (h : ltLex a b = true) : ltLex b a = false := by
  rcases hba : ltLex b a with _ | _
  · rfl
  · have := ltLex_trans h hba
    rw [ltLex_irrefl] at this
    cases this

/-- `a ≤ b ∧ b < c → a < c`. -/
theorem ltLex_le_lt_trans {a b c : List Nat}
    (h1 : ltLex b a = false) (h2 : ltLex b c = true) : ltLex a c = true := by
  rcases ltLex_flip h1 with rfl | h'
  · exact h2
  · exact ltLex_trans h' h2

/-- `a ≤ b ∧ b ≤ c → a ≤ c`. -/
theorem ltLex_le_trans {a b c : List Nat}
    (h1 : ltLex b a = false) (h2 : ltLex c b = false) : ltLex c a = false := by
  rcases hca : ltLex c a with _ | _
  · rfl
  · exfalso
    rcases ltLex_flip h2 with rfl | h'
    · rw [hca] at h1; cases h1
    · have := ltLex_trans h' hca
      rw [this] at h1
      cases h1

theorem ltLex_append_self : ∀ (a t : List Nat), ltLex (a ++ t) a = false := by
  intro a t
  induction a with
  | nil => cases t with
    | nil => rfl
    | cons d t' => rfl
  | cons d a' ih =>
    rw [List.cons_append, ltLex, if_neg (lt_irrefl d), if_neg (lt_irrefl d)]
    exact ih

theorem ltLex_append_same : ∀ (a x y : List Nat),
    ltLex (a ++ x) (a ++ y) = ltLex x y := by
  intro a x y
  induction a with
  | nil => rfl
  | cons d a' ih =>
    rw [List.cons_append, List.cons_append, ltLex,
      if_neg (lt_irrefl d), if_neg (lt_irrefl d)]
    exact ih

/-- Keys between two keys sharing a prefix also carry that prefix. -/
theorem prefix_squeeze : ∀ {q a b c : List Nat},
    q.isPrefixOf a = true → q.isPrefixOf c = true →
    ltLex b a = false → ltLex c b = false → q.isPrefixOf b = true := by
  intro q
  induction q with
  | nil => intro a b c _ _ _ _; simp [List.isPrefixOf]
  | cons d q' ih =>
    intro a b c hqa hqc hba hcb
    cases a with
    | nil => simp [List.isPrefixOf] at hqa
    | cons x a' =>
      cases c with
      | nil => simp [List.isPrefixOf] at hqc
      | cons y c' =>
        simp only [List.isPrefixOf, Bool.and_eq_true] at hqa hqc
        have hdx : d = x := by simpa using hqa.1
        have hdy : d = y := by simpa using hqc.1
        subst hdx
        subst hdy
        cases b with
        | nil =>
          rw [ltLex] at hba
          cases hba
        | cons e b' =>
          rw [ltLex] at hba hcb
          by_cases hed : e < d
          · rw [if_pos hed] at hba; cases hba
          · rw [if_neg hed] at hba
            by_cases hde : d < e
            · rw [if_pos hde] at hcb; cases hcb
            · rw [if_neg hde] at hcb
              rw [if_neg hde] at hba
              rw [if_neg hed] at hcb
              have hede : e = d := by omega
              subst hede
              simp only [List.isPrefixOf, Bool.and_eq_true]
              exact ⟨by simp, ih hqa.2 hqc.2 hba hcb⟩

/-- `HexPrefix::min_prefix_bytes` in digit form: the prefix padded to even
length with a zero digit. -/
def minDigits (p : List Nat) : List Nat :=
  if p.length % 2 = 1 then p ++ [0] else p

theorem minDigits_isPrefixOf (p : List Nat) : p.isPrefixOf (minDigits p) = true := by
  rw [minDigits]
  by_cases h : p.length % 2 = 1
  · rw [if_pos h]
    exact List.isPrefixOf_iff_prefix.mpr (List.prefix_append p [0])
  · rw [if_neg h]
    exact List.isPrefixOf_iff_prefix.mpr (List.prefix_refl p)

/-- Every whole-byte key matching the prefix is at least
`min_prefix_bytes`: the binary search cannot skip a matching key. -/
theorem matcher_ge_min {p k : List Nat} (heven : k.length % 2 = 0)
    (h : p.isPrefixOf k = true) : ltLex k (minDigits p) = false := by
  rcases List.isPrefixOf_iff_prefix.mp h with ⟨t, rfl⟩
  rw [minDigits]
  by_cases hodd : p.length % 2 = 1
  · rw [if_pos hodd]
    rcases t with _ | ⟨d, t'⟩
    · rw [List.length_append] at heven
      simp only [List.length_nil] at heven
      omega
    · rw [ltLex_append_same]
      rw [ltLex]
      rcases Nat.lt_or_ge 0 d with h0 | h0
      · rw [if_neg (by omega), if_pos h0]
      · have hd0 : d = 0 := by omega
        subst hd0
        rw [if_neg (lt_irrefl 0), if_neg (lt_irrefl 0)]
        cases t' <;> rfl
  · rw [if_neg hodd]
    exact ltLex_append_self p t

/-- The sortedness invariant of `IdIndex`'s backing vector (`from_vec`
sorts by key; duplicate keys are allowed). -/
abbrev SortedIdx {V : Type} (idx : List (List Nat × V)) : Prop :=
  idx.Pairwise (fun a b => ltLex b.1 a.1 = false)

/-- `PrefixResolution`. -/
inductive PrefixResolution (α : Type) where
  | NoMatch
  | SingleMatch (v : α)
  | AmbiguousMatch
deriving DecidableEq, Repr

/-- `IdIndex::resolve_prefix_range`: `partition_point` to the first key
not below `min_prefix_bytes` (for a sorted index this is dropping the
keys below), then the contiguous run of keys matching the prefix. -/
def resolve_prefix_range {V : Type} (idx : List (List Nat × V)) (p : List Nat) :
    List (List Nat × V) :=
  (idx.dropWhile (fun kv => ltLex kv.1 (minDigits p))).takeWhile
    (fun kv => p.isPrefixOf kv.1)

/-- `IdIndex::resolve_prefix_with`: `NoMatch` on an empty run,
`SingleMatch` of all mapped values if every key in the run equals the
first, `AmbiguousMatch` otherwise. -/
def resolve_prefix_with {V U : Type} (idx : List (List Nat × V)) (p : List Nat)
    (f : V → U) : PrefixResolution (List U) :=
  match resolve_prefix_range idx p with
  | [] => .NoMatch
  | kv0 :: rest =>
    if (kv0 :: rest).all (fun kv => kv.1 = kv0.1)
    then .SingleMatch ((kv0 :: rest).map (fun kv => f kv.2))
    else .AmbiguousMatch

theorem dropWhile_head_false {α : Type} (p : α → Bool) :
    ∀ (l : List α) (x : α) (rest : List α),
      l.dropWhile p = x :: rest → p x = false := by
  intro l
  induction l with
  | nil => intro x rest h; cases h
  | cons a l' ih =>
    intro x rest h
    rw [List.dropWhile_cons] at h
    by_cases ha : p a = true
    · rw [if_pos ha] at h
      exact ih x rest h
    · rw [if_neg ha] at h
      cases h
      simpa using ha

theorem mem_takeWhile_true {α : Type} (p : α → Bool) :
    ∀ (l : List α) (x : α), x ∈ l.takeWhile p → p x = true := by
  intro l
  induction l with
  | nil => intro x h; cases h
  | cons a l' ih =>
    intro x h
    rw [List.takeWhile_cons] at h
    by_cases ha : p a = true
    · rw [if_pos ha] at h
      rcases List.mem_cons.mp h with rfl | h'
      · exact ha
      · exact ih x h'
    · rw [if_neg ha] at h
      cases h

/-- In a sorted index, everything the binary search keeps is at least
`min_prefix_bytes`. -/
theorem dropWhile_ge_min {V : Type} {idx : List (List Nat × V)} {m : List Nat}
    (hs : SortedIdx idx) :
    ∀ kv ∈ idx.dropWhile (fun kv => ltLex kv.1 m), ltLex kv.1 m = false := by
  induction idx with
  | nil => intro kv h; cases h
  | cons a l ih =>
    intro kv h
    rw [List.dropWhile_cons] at h
    by_cases ha : ltLex a.1 m = true
    · rw [if_pos (by simpa using ha)] at h
      exact ih (List.pairwise_cons.mp hs).2 kv h
    · rw [if_neg (by simpa using ha)] at h
      have ha' : ltLex a.1 m = false := by simpa using ha
      rcases List.mem_cons.mp h with rfl | h'
      · exact ha'
      · exact ltLex_le_trans ha' ((List.pairwise_cons.mp hs).1 kv h')

/-- For a sorted, whole-byte index, the run captured by
`resolve_prefix_range` is exactly the entries whose key matches the
prefix. -/
theorem run_eq_filter {V : Type} {idx : List (List Nat × V)} {p : List Nat}
    (hs : SortedIdx idx) (heven : ∀ kv ∈ idx, kv.1.length % 2 = 0) :
    resolve_prefix_range idx p = idx.filter (fun kv => p.isPrefixOf kv.1) := by
  rw [resolve_prefix_range]
  set pred := fun kv : List Nat × V => ltLex kv.1 (minDigits p) with hpred
  set mtch := fun kv : List Nat × V => p.isPrefixOf kv.1 with hmatch
  have hsplit : idx = idx.takeWhile pred ++ idx.dropWhile pred :=
    (List.takeWhile_append_dropWhile pred idx).symm
  have hBnil : (idx.takeWhile pred).filter mtch = [] := by
    rw [List.filter_eq_nil_iff]
    intro kv hkv
    have hp : ltLex kv.1 (minDigits p) = true := mem_takeWhile_true pred idx kv hkv
    have hkvmem : kv ∈ idx := (List.takeWhile_sublist pred).subset hkv
    intro hc
    have hge := matcher_ge_min (heven kv hkvmem) hc
    rw [hge] at hp
    cases hp
  have hAsorted : SortedIdx (idx.dropWhile pred) :=
    List.Pairwise.sublist (List.dropWhile_sublist _) hs
  have hAge : ∀ kv ∈ idx.dropWhile pred, ltLex kv.1 (minDigits p) = false :=
    dropWhile_ge_min hs
  have hAfilter : (idx.dropWhile pred).filter mtch =
      (idx.dropWhile pred).takeWhile mtch := by
    set A := idx.dropWhile pred with hA
    have hAsplit : A = A.takeWhile mtch ++ A.dropWhile mtch :=
      (List.takeWhile_append_dropWhile mtch A).symm
    have hM : (A.takeWhile mtch).filter mtch = A.takeWhile mtch :=
      List.filter_eq_self.mpr (fun kv hkv => mem_takeWhile_true mtch A kv hkv)
    have hR : ∀ (R : List (List Nat × V)), A.dropWhile mtch = R → R.filter mtch = [] := by
      intro R hReq
      rcases R with _ | ⟨r0, R'⟩
      · rfl
      · rw [List.filter_eq_nil_iff]
        intro kv hkv hc
        have hr0 : mtch r0 = false := dropWhile_head_false mtch A r0 R' hReq
        have hr0A : r0 ∈ A.dropWhile mtch := by
          rw [hReq]
          exact List.mem_cons_self r0 R'
        have hr0min : ltLex r0.1 (minDigits p) = false :=
          hAge r0 ((List.dropWhile_sublist mtch).subset hr0A)
        have hRsorted : SortedIdx (r0 :: R') := by
          rw [← hReq]
          exact List.Pairwise.sublist (List.dropWhile_sublist _) hAsorted
        have hr0kv : ltLex kv.1 r0.1 = false := by
          rcases List.mem_cons.mp hkv with rfl | hkv'
          · exact ltLex_irrefl _
          · exact (List.pairwise_cons.mp hRsorted).1 kv hkv'
        have hcp : p.isPrefixOf kv.1 = true := hc
        have hpref : p.isPrefixOf r0.1 = true :=
          prefix_squeeze (minDigits_isPrefixOf p) hcp hr0min hr0kv
        have hr0' : p.isPrefixOf r0.1 = false := hr0
        rw [hpref] at hr0'
        cases hr0'
    calc A.filter mtch
        = (A.takeWhile mtch ++ A.dropWhile mtch).filter mtch := by rw [← hAsplit]
      _ = (A.takeWhile mtch).filter mtch ++ (A.dropWhile mtch).filter mtch :=
          List.filter_append _ _
      _ = A.takeWhile mtch := by rw [hM, hR _ rfl, List.append_nil]
  calc (idx.dropWhile pred).takeWhile mtch
      = (idx.dropWhile pred).filter mtch := hAfilter.symm
    _ = [] ++ (idx.dropWhile pred).filter mtch := rfl
    _ = (idx.takeWhile pred).filter mtch ++ (idx.dropWhile pred).filter mtch := by
        rw [hBnil]
    _ = ((idx.takeWhile pred) ++ (idx.dropWhile pred)).filter mtch :=
        (List.filter_append _ _).symm
    _ = idx.filter mtch := by rw [← hsplit]

/-- Full characterisation of `resolve_prefix_with` on a sorted whole-byte
index: `NoMatch` iff nothing matches, `SingleMatch` iff exactly one
distinct key matches (with all of that key's values), `AmbiguousMatch` iff
two distinct keys match. -/
theorem resolve_spec {V U : Type} (idx : List (List Nat × V)) (p : List Nat)
    (f : V → U) (hs : SortedIdx idx) (heven : ∀ kv ∈ idx, kv.1.length % 2 = 0) :
    (resolve_prefix_with idx p f = .NoMatch ↔
      ∀ kv ∈ idx, ¬ (p.isPrefixOf kv.1 = true)) ∧
    (∀ vs, resolve_prefix_with idx p f = .SingleMatch vs →
      ∃ k, p.isPrefixOf k = true ∧ (∃ kv ∈ idx, kv.1 = k) ∧
        (∀ kv ∈ idx, p.isPrefixOf kv.1 = true → kv.1 = k) ∧
        vs = (idx.filter (fun kv => kv.1 = k)).map (fun kv => f kv.2)) ∧
    ((∃ k, p.isPrefixOf k = true ∧ (∃ kv ∈ idx, kv.1 = k) ∧
        (∀ kv ∈ idx, p.isPrefixOf kv.1 = true → kv.1 = k)) →
      ∃ vs, resolve_prefix_with idx p f = .SingleMatch vs) ∧
    (resolve_prefix_with idx p f = .AmbiguousMatch ↔
      ∃ kv1 ∈ idx, ∃ kv2 ∈ idx, p.isPrefixOf kv1.1 = true ∧
        p.isPrefixOf kv2.1 = true ∧ kv1.1 ≠ kv2.1) := by
  have hrw : resolve_prefix_with idx p f =
      match idx.filter (fun kv => p.isPrefixOf kv.1) with
      | [] => .NoMatch
      | kv0 :: rest =>
        if (kv0 :: rest).all (fun kv => kv.1 = kv0.1)
        then .SingleMatch ((kv0 :: rest).map (fun kv => f kv.2))
        else .AmbiguousMatch := by
    rw [resolve_prefix_with, run_eq_filter hs heven]
  rcases hF : idx.filter (fun kv => p.isPrefixOf kv.1) with _ | ⟨kv0, rest⟩
  · rw [hF] at hrw
    have hnone : ∀ kv ∈ idx, ¬ (p.isPrefixOf kv.1 = true) := by
      intro kv hkv hc
      have : kv ∈ idx.filter (fun kv => p.isPrefixOf kv.1) :=
        List.mem_filter.mpr ⟨hkv, hc⟩
      rw [hF] at this
      cases this
    refine ⟨⟨fun _ => hnone, fun _ => hrw⟩, ?_, ?_, ?_⟩
    · intro vs hvs
      rw [hrw] at hvs
      cases hvs
    · rintro ⟨k, hpk, ⟨kv, hkv, rfl⟩, _⟩
      exact absurd hpk (hnone kv hkv)
    · constructor
      · intro hc
        rw [hrw] at hc
        cases hc
      · rintro ⟨kv1, hkv1, _, _, hp1, _, _⟩
        exact absurd hp1 (hnone kv1 hkv1)
  · rw [hF] at hrw
    dsimp only at hrw
    have hkv0F : kv0 ∈ idx.filter (fun kv => p.isPrefixOf kv.1) := by
      rw [hF]
      exact List.mem_cons_self _ _
    have hkv0idx : kv0 ∈ idx := (List.mem_filter.mp hkv0F).1
    have hkv0p : p.isPrefixOf kv0.1 = true := by
      simpa using (List.mem_filter.mp hkv0F).2
    have hmemF : ∀ kv ∈ idx, p.isPrefixOf kv.1 = true → kv ∈ kv0 :: rest := by
      intro kv hkv hp
      rw [← hF]
      exact List.mem_filter.mpr ⟨hkv, by simpa using hp⟩
    by_cases hall : ((kv0 :: rest).all (fun kv => kv.1 = kv0.1)) = true
    · rw [if_pos hall] at hrw
      have halleq : ∀ kv ∈ kv0 :: rest, kv.1 = kv0.1 := by
        intro kv hkv
        have := List.all_eq_true.mp hall kv hkv
        simpa using this
      refine ⟨⟨(fun hc => by rw [hrw] at hc; cases hc),
        fun hc => absurd hkv0p (hc kv0 hkv0idx)⟩, ?_, ?_, ?_⟩
      · intro vs hvs
        rw [hrw] at hvs
        cases hvs
        refine ⟨kv0.1, hkv0p, ⟨kv0, hkv0idx, rfl⟩, ?_, ?_⟩
        · intro kv hkv hp
          exact halleq kv (hmemF kv hkv hp)
        · have hfeq : idx.filter (fun kv => p.isPrefixOf kv.1) =
              idx.filter (fun kv => kv.1 = kv0.1) := by
            refine List.filter_congr ?_
            intro kv hkv
            rw [Bool.eq_iff_iff]
            simp only [decide_eq_true_eq]
            constructor
            · intro hp
              exact halleq kv (hmemF kv hkv hp)
            · intro hk
              rw [hk]
              exact hkv0p
          rw [← hfeq, hF]
      · intro _
        exact ⟨_, hrw⟩
      · constructor
        · intro hc
          rw [hrw] at hc
          cases hc
        · rintro ⟨kv1, hkv1, kv2, hkv2, hp1, hp2, hne⟩
          exact absurd ((halleq kv1 (hmemF kv1 hkv1 hp1)).trans
            (halleq kv2 (hmemF kv2 hkv2 hp2)).symm) hne
    · rw [if_neg hall] at hrw
      have hex : ∃ kv ∈ kv0 :: rest, ¬ (kv.1 = kv0.1) := by
        by_contra hc
        push_neg at hc
        exact hall (List.all_eq_true.mpr (fun kv hkv => by
          simpa using hc kv hkv))
      rcases hex with ⟨kv1, hkv1, hne⟩
      have hkv1F : kv1 ∈ idx.filter (fun kv => p.isPrefixOf kv.1) := by
        rw [hF]; exact hkv1
      have hkv1idx : kv1 ∈ idx := (List.mem_filter.mp hkv1F).1
      have hkv1p : p.isPrefixOf kv1.1 = true := by
        simpa using (List.mem_filter.mp hkv1F).2
      refine ⟨⟨(fun hc => by rw [hrw] at hc; cases hc),
        fun hc => absurd hkv0p (hc kv0 hkv0idx)⟩, ?_, ?_, ?_⟩
      · intro vs hvs
        rw [hrw] at hvs
        cases hvs
      · rintro ⟨k, hpk, hexk, huniq⟩
        exfalso
        exact hne ((huniq kv1 hkv1idx hkv1p).trans (huniq kv0 hkv0idx hkv0p).symm)
      · exact ⟨fun _ => ⟨kv1, hkv1idx, kv0, hkv0idx, hkv1p, hkv0p, hne⟩,
          fun _ => hrw⟩

/-- Modelled from the spec: `backend::common_hex_len`, the length of the
common hexadecimal prefix of two ids (only called from `src/`; its
definition lives outside the provided sources). -/
def common_hex_len : List Nat → List Nat → Nat
  | [], _ => 0
  | _ :: _, [] => 0
  | a :: as, b :: bs => if a = b then common_hex_len as bs + 1 else 0

theorem common_hex_len_le : ∀ (key k : List Nat), common_hex_len key k ≤ key.length := by
  intro key
  induction key with
  | nil => intro k; cases k <;> simp [common_hex_len]
  | cons d key' ih =>
    intro k
    cases k with
    | nil => rw [common_hex_len]; simp
    | cons e k' =>
      rw [common_hex_len]
      by_cases h : d = e
      · rw [if_pos h]
        simpa using ih k'
      · rw [if_neg h]
        simp

theorem common_hex_len_append : ∀ (key r : List Nat),
    common_hex_len key (key ++ r) = key.length := by
  intro key r
  induction key with
  | nil => cases r <;> rfl
  | cons d key' ih =>
    rw [List.cons_append, common_hex_len, if_pos rfl, ih]
    rfl

theorem cpl_take_pre : ∀ (key k : List Nat),
    (key.take (common_hex_len key k)).isPrefixOf k = true := by
  intro key
  induction key with
  | nil => intro k; cases k <;> simp [common_hex_len, List.isPrefixOf]
  | cons d key' ih =>
    intro k
    cases k with
    | nil => rw [common_hex_len]; simp [List.isPrefixOf]
    | cons e k' =>
      rw [common_hex_len]
      by_cases h : d = e
      · rw [if_pos h, List.take_succ_cons]
        simp only [List.isPrefixOf, Bool.and_eq_true]
        exact ⟨by simpa using h, ih k'⟩
      · rw [if_neg h, List.take_zero]
        simp [List.isPrefixOf]

theorem le_cpl_of_pre : ∀ {q key k : List Nat},
    q.isPrefixOf key = true → q.isPrefixOf k = true →
    q.length ≤ common_hex_len key k := by
  intro q
  induction q with
  | nil => intro key k _ _; simp
  | cons d q' ih =>
    intro key k hq1 hq2
    cases key with
    | nil => simp [List.isPrefixOf] at hq1
    | cons x key' =>
      cases k with
      | nil => simp [List.isPrefixOf] at hq2
      | cons y k' =>
        simp only [List.isPrefixOf, Bool.and_eq_true] at hq1 hq2
        have hdx : d = x := by simpa using hq1.1
        have hdy : d = y := by simpa using hq2.1
        rw [common_hex_len, if_pos (by omega)]
        simp only [List.length_cons]
        exact Nat.succ_le_succ (ih hq1.2 hq2.2)

/-- For `k ≤ w ≤ key`, `w` shares at least as long a hex prefix with `key`
as `k` does. -/
theorem cpl_mono_below {key k w : List Nat}
    (h1 : ltLex w k = false) (h2 : ltLex key w = false) :
    common_hex_len key k ≤ common_hex_len key w := by
  have hq1 : (key.take (common_hex_len key k)).isPrefixOf key = true :=
    List.isPrefixOf_iff_prefix.mpr (List.take_prefix _ _)
  have hq2 : (key.take (common_hex_len key k)).isPrefixOf k = true :=
    cpl_take_pre key k
  have hqw : (key.take (common_hex_len key k)).isPrefixOf w = true :=
    prefix_squeeze hq2 hq1 h1 h2
  have hlen : (key.take (common_hex_len key k)).length = common_hex_len key k := by
    rw [List.length_take]
    have := common_hex_len_le key k
    omega
  calc common_hex_len key k = (key.take (common_hex_len key k)).length := hlen.symm
    _ ≤ common_hex_len key w := le_cpl_of_pre hq1 hqw

/-- For `key ≤ w ≤ k`, `w` shares at least as long a hex prefix with `key`
as `k` does. -/
theorem cpl_mono_above {key k w : List Nat}
    (h1 : ltLex w key = false) (h2 : ltLex k w = false) :
    common_hex_len key k ≤ common_hex_len key w := by
  have hq1 : (key.take (common_hex_len key k)).isPrefixOf key = true :=
    List.isPrefixOf_iff_prefix.mpr (List.take_prefix _ _)
  have hq2 : (key.take (common_hex_len key k)).isPrefixOf k = true :=
    cpl_take_pre key k
  have hqw : (key.take (common_hex_len key k)).isPrefixOf w = true :=
    prefix_squeeze hq1 hq2 h1 h2
  have hlen : (key.take (common_hex_len key k)).length = common_hex_len key k := by
    rw [List.length_take]
    have := common_hex_len_le key k
    omega
  calc common_hex_len key k = (key.take (common_hex_len key k)).length := hlen.symm
    _ ≤ common_hex_len key w := le_cpl_of_pre hq1 hqw

theorem le_foldr_max {l : List Nat} {x : Nat} (h : x ∈ l) : x ≤ l.foldr max 0 := by
  induction l with
  | nil => cases h
  | cons a l' ih =>
    rw [List.foldr_cons]
    rcases List.mem_cons.mp h with rfl | h'
    · exact le_max_left _ _
    · exact le_trans (ih h') (le_max_right _ _)

theorem foldr_max_le {l : List Nat} {b : Nat} (h : ∀ x ∈ l, x ≤ b) :
    l.foldr max 0 ≤ b := by
  induction l with
  | nil => simp
  | cons a l' ih =>
    rw [List.foldr_cons]
    exact max_le (h a (List.mem_cons_self _ _))
      (ih (fun x hx => h x (List.mem_cons_of_mem a hx)))

/-- `IdIndex::shortest_unique_prefix_len`: `partition_point` on `k < key`
(for a sorted index: the prefix of keys below `key`), the entry just
before the partition point (the largest key below), the first entry from
the partition point whose key differs (the smallest key above, skipping
exact matches), and the maximum of `common_hex_len + 1` over those
neighbours, `0` if none exist. -/
def shortest_unique_prefix_len {V : Type} (idx : List (List Nat × V))
    (key : List Nat) : Nat :=
  let below := idx.takeWhile (fun kv => ltLex kv.1 key)
  let above := idx.dropWhile (fun kv => ltLex kv.1 key)
  ((below.getLast?.toList ++ (above.find? (fun kv => kv.1 ≠ key)).toList).map
    (fun kv => common_hex_len key kv.1 + 1)).foldr max 0

/-- Lexicographically greatest key of a list, `none` when empty. -/
def lexMax? (ks : List (List Nat)) : Option (List Nat) :=
  ks.foldr (fun k acc =>
    match acc with
    | none => some k
    | some m => if ltLex m k = true then some k else some m) none

/-- Lexicographically least key of a list, `none` when empty. -/
def lexMin? (ks : List (List Nat)) : Option (List Nat) :=
  ks.foldr (fun k acc =>
    match acc with
    | none => some k
    | some m => if ltLex k m = true then some k else some m) none

/-- Modelled from the spec: the nearest-neighbour formula for
`shortest_unique_prefix_len` stated over all entries — the largest stored
key strictly less than `key`, the smallest stored key strictly greater
(exact matches skipped), `common_hex_prefix_len(key, neighbor) + 1`
maximised over the existing neighbours, `0` when none exist. -/
def spec_neighbor_len {V : Type} (idx : List (List Nat × V))
    (key : List Nat) : Nat :=
  let ks := idx.map (·.1)
  let left := lexMax? (ks.filter (fun k => ltLex k key))
  let right := lexMin? (ks.filter (fun k => ltLex key k))
  ((left.toList ++ right.toList).map
    (fun k => common_hex_len key k + 1)).foldr max 0

theorem lexMax?_cons (k : List Nat) (ks : List (List Nat)) :
    lexMax? (k :: ks) =
      match lexMax? ks with
      | none => some k
      | some m => if ltLex m k = true then some k else some m := rfl

theorem lexMin?_cons (k : List Nat) (ks : List (List Nat)) :
    lexMin? (k :: ks) =
      match lexMin? ks with
      | none => some k
      | some m => if ltLex k m = true then some k else some m := rfl

theorem lexMax?_eq_none : ∀ {ks : List (List Nat)}, lexMax? ks = none → ks = [] := by
  intro ks h
  rcases ks with _ | ⟨k, ks'⟩
  · rfl
  · rw [lexMax?_cons] at h
    rcases hacc : lexMax? ks' with _ | m'
    · rw [hacc] at h
      cases h
    · rw [hacc] at h
      dsimp only at h
      by_cases hlt : ltLex m' k = true
      · rw [if_pos hlt] at h; cases h
      · rw [if_neg hlt] at h; cases h

theorem lexMin?_eq_none : ∀ {ks : List (List Nat)}, lexMin? ks = none → ks = [] := by
  intro ks h
  rcases ks with _ | ⟨k, ks'⟩
  · rfl
  · rw [lexMin?_cons] at h
    rcases hacc : lexMin? ks' with _ | m'
    · rw [hacc] at h
      cases h
    · rw [hacc] at h
      dsimp only at h
      by_cases hlt : ltLex k m' = true
      · rw [if_pos hlt] at h; cases h
      · rw [if_neg hlt] at h; cases h

theorem lexMax?_mem : ∀ {ks : List (List Nat)} {m : List Nat},
    lexMax? ks = some m → m ∈ ks := by
  intro ks
  induction ks with
  | nil => intro m h; cases h
  | cons k ks' ih =>
    intro m h
    rw [lexMax?_cons] at h
    rcases hacc : lexMax? ks' with _ | m'
    · rw [hacc] at h
      cases h
      exact List.mem_cons_self _ _
    · rw [hacc] at h
      dsimp only at h
      by_cases hlt : ltLex m' k = true
      · rw [if_pos hlt] at h
        cases h
        exact List.mem_cons_self _ _
      · rw [if_neg hlt] at h
        cases h
        exact List.mem_cons_of_mem k (ih hacc)

theorem lexMax?_max : ∀ {ks : List (List Nat)} {m : List Nat},
    lexMax? ks = some m → ∀ x ∈ ks, ltLex m x = false := by
  intro ks
  induction ks with
  | nil => intro m h; cases h
  | cons k ks' ih =>
    intro m h x hx
    rw [lexMax?_cons] at h
    rcases hacc : lexMax? ks' with _ | m'
    · rw [hacc] at h
      cases h
      have hnil : ks' = [] := lexMax?_eq_none hacc
      subst hnil
      rcases List.mem_cons.mp hx with rfl | hx'
      · exact ltLex_irrefl _
      · cases hx'
    · rw [hacc] at h
      dsimp only at h
      by_cases hlt : ltLex m' k = true
      · rw [if_pos hlt] at h
        cases h
        rcases List.mem_cons.mp hx with rfl | hx'
        · exact ltLex_irrefl _
        · have hmx := ih hacc x hx'
          rcases hkx : ltLex k x with _ | _
          · rfl
          · exfalso
            have hc := ltLex_trans hlt hkx
            rw [hc] at hmx
            cases hmx
      · rw [if_neg hlt] at h
        cases h
        rcases List.mem_cons.mp hx with rfl | hx'
        · simpa using hlt
        · exact ih hacc x hx'

theorem lexMax?_isSome {ks : List (List Nat)} (h : ks ≠ []) :
    ∃ m, lexMax? ks = some m := by
  rcases hm : lexMax? ks with _ | m
  · exact absurd (lexMax?_eq_none hm) h
  · exact ⟨m, rfl⟩

theorem lexMin?_mem : ∀ {ks : List (List Nat)} {m : List Nat},
    lexMin? ks = some m → m ∈ ks := by
  intro ks
  induction ks with
  | nil => intro m h; cases h
  | cons k ks' ih =>
    intro m h
    rw [lexMin?_cons] at h
    rcases hacc : lexMin? ks' with _ | m'
    · rw [hacc] at h
      cases h
      exact List.mem_cons_self _ _
    · rw [hacc] at h
      dsimp only at h
      by_cases hlt : ltLex k m' = true
      · rw [if_pos hlt] at h
        cases h
        exact List.mem_cons_self _ _
      · rw [if_neg hlt] at h
        cases h
        exact List.mem_cons_of_mem k (ih hacc)

theorem lexMin?_min : ∀ {ks : List (List Nat)} {m : List Nat},
    lexMin? ks = some m → ∀ x ∈ ks, ltLex x m = false := by
  intro ks
  induction ks with
  | nil => intro m h; cases h
  | cons k ks' ih =>
    intro m h x hx
    rw [lexMin?_cons] at h
    rcases hacc : lexMin? ks' with _ | m'
    · rw [hacc] at h
      cases h
      have hnil : ks' = [] := lexMin?_eq_none hacc
      subst hnil
      rcases List.mem_cons.mp hx with rfl | hx'
      · exact ltLex_irrefl _
      · cases hx'
    · rw [hacc] at h
      dsimp only at h
      by_cases hlt : ltLex k m' = true
      · rw [if_pos hlt] at h
        cases h
        rcases List.mem_cons.mp hx with rfl | hx'
        · exact ltLex_irrefl _
        · have hmx := ih hacc x hx'
          rcases hxk : ltLex x k with _ | _
          · rfl
          · exfalso
            have hc := ltLex_trans hxk hlt
            rw [hc] at hmx
            cases hmx
      · rw [if_neg hlt] at h
        cases h
        rcases List.mem_cons.mp hx with rfl | hx'
        · simpa using hlt
        · exact ih hacc x hx'

theorem lexMin?_isSome {ks : List (List Nat)} (h : ks ≠ []) :
    ∃ m, lexMin? ks = some m := by
  rcases hm : lexMin? ks with _ | m
  · exact absurd (lexMin?_eq_none hm) h
  · exact ⟨m, rfl⟩

theorem getLast_max {V : Type} : ∀ {l : List (List Nat × V)} {kv : List Nat × V},
    SortedIdx l → l.getLast? = some kv → ∀ x ∈ l, ltLex kv.1 x.1 = false := by
  intro l
  induction l with
  | nil => intro kv _ h; cases h
  | cons a t ih =>
    intro kv hs h x hx
    rcases t with _ | ⟨b, t'⟩
    · rw [List.getLast?_singleton] at h
      cases h
      rcases List.mem_singleton.mp hx with rfl
      exact ltLex_irrefl _
    · rw [List.getLast?_cons_cons] at h
      have hkvmem : kv ∈ b :: t' := List.mem_of_mem_getLast? h
      rcases List.mem_cons.mp hx with rfl | hx'
      · exact (List.pairwise_cons.mp hs).1 kv hkvmem
      · exact ih (List.pairwise_cons.mp hs).2 h x hx'

/-- In a sorted index, a key strictly below `key` lies in the
`partition_point` prefix. -/
theorem mem_below {V : Type} {idx : List (List Nat × V)} {key : List Nat}
    (hs : SortedIdx idx) {kv : List Nat × V} (hkv : kv ∈ idx)
    (hlt : ltLex kv.1 key = true) :
    kv ∈ idx.takeWhile (fun kv => ltLex kv.1 key) := by
  have hsplit : idx = idx.takeWhile (fun kv => ltLex kv.1 key) ++
      idx.dropWhile (fun kv => ltLex kv.1 key) :=
    (List.takeWhile_append_dropWhile _ idx).symm
  rcases List.mem_append.mp (hsplit ▸ hkv) with h | h
  · exact h
  · exfalso
    have := dropWhile_ge_min hs kv h
    rw [hlt] at this
    cases this

/-- In a sorted index, a key not below `key` lies in the tail the
`partition_point` keeps. -/
theorem mem_above {V : Type} {idx : List (List Nat × V)} {key : List Nat}
    {kv : List Nat × V} (hkv : kv ∈ idx)
    (hge : ltLex kv.1 key = false) :
    kv ∈ idx.dropWhile (fun kv => ltLex kv.1 key) := by
  have hsplit : idx = idx.takeWhile (fun kv => ltLex kv.1 key) ++
      idx.dropWhile (fun kv => ltLex kv.1 key) :=
    (List.takeWhile_append_dropWhile _ idx).symm
  rcases List.mem_append.mp (hsplit ▸ hkv) with h | h
  · exfalso
    have := mem_takeWhile_true _ idx kv h
    rw [hge] at this
    cases this
  · exact h

/-- The first entry of the kept tail with a different key is the least key
strictly above (exact matches skipped). -/
theorem find_ne_min {V : Type} {key : List Nat} :
    ∀ {l : List (List Nat × V)} {r : List Nat × V},
    SortedIdx l → l.find? (fun kv => kv.1 ≠ key) = some r →
    ∀ x ∈ l, ¬ (x.1 = key) → ltLex x.1 r.1 = false := by
  intro l
  induction l with
  | nil => intro r _ h; cases h
  | cons a t ih =>
    intro r hs h x hx hxne
    rw [List.find?_cons] at h
    by_cases ha : (a.1 ≠ key)
    · rw [decide_eq_true ha] at h
      dsimp only at h
      cases h
      rcases List.mem_cons.mp hx with rfl | hx'
      · exact ltLex_irrefl _
      · exact (List.pairwise_cons.mp hs).1 x hx'
    · rw [decide_eq_false ha] at h
      dsimp only at h
      rcases List.mem_cons.mp hx with rfl | hx'
      · exact absurd hxne ha
      · exact ih (List.pairwise_cons.mp hs).2 h x hx' hxne

/-- Any candidate list drawn from the other distinct keys that dominates
all of them has the same running maximum of `common_hex_len + 1`. -/
theorem max_eq_allmax {V : Type} (idx : List (List Nat × V)) (key : List Nat)
    (cands : List (List Nat))
    (hsub : ∀ k ∈ cands, k ≠ key ∧ k ∈ idx.map (·.1))
    (hdom : ∀ k' ∈ idx.map (·.1), k' ≠ key →
      ∃ w ∈ cands, common_hex_len key k' ≤ common_hex_len key w) :
    (cands.map (fun k => common_hex_len key k + 1)).foldr max 0 =
      (((idx.map (·.1)).filter (fun k => k ≠ key)).map
        (fun k => common_hex_len key k + 1)).foldr max 0 := by
  apply Nat.le_antisymm
  · apply foldr_max_le
    intro x hx
    rcases List.mem_map.mp hx with ⟨k, hk, rfl⟩
    rcases hsub k hk with ⟨hne, hmem⟩
    exact le_foldr_max (List.mem_map.mpr
      ⟨k, List.mem_filter.mpr ⟨hmem, by simpa using hne⟩, rfl⟩)
  · apply foldr_max_le
    intro x hx
    rcases List.mem_map.mp hx with ⟨k', hk', rfl⟩
    rcases List.mem_filter.mp hk' with ⟨hk'mem, hk'ne⟩
    rcases hdom k' hk'mem (by simpa using hk'ne) with ⟨w, hw, hle⟩
    calc common_hex_len key k' + 1 ≤ common_hex_len key w + 1 := by omega
      _ ≤ _ := le_foldr_max (List.mem_map.mpr ⟨w, hw, rfl⟩)

/-- The code's neighbour scan equals `1 +` the longest hex prefix shared
with any other distinct stored key (`0` when there is none). -/
theorem shortest_unique_eq_allmax {V : Type} (idx : List (List Nat × V))
    (key : List Nat) (hs : SortedIdx idx) :
    shortest_unique_prefix_len idx key =
      (((idx.map (·.1)).filter (fun k => k ≠ key)).map
        (fun k => common_hex_len key k + 1)).foldr max 0 := by
  rw [shortest_unique_prefix_len]
  set below := idx.takeWhile (fun kv => ltLex kv.1 key) with hbelow
  set above := idx.dropWhile (fun kv => ltLex kv.1 key) with habove
  set pairs := below.getLast?.toList ++
    (above.find? (fun kv => kv.1 ≠ key)).toList with hpairs
  have hcomp : pairs.map (fun kv => common_hex_len key kv.1 + 1) =
      (pairs.map (·.1)).map (fun k => common_hex_len key k + 1) := by
    rw [List.map_map]
    rfl
  rw [hcomp]
  refine max_eq_allmax idx key (pairs.map (·.1)) ?_ ?_
  · intro k hk
    rcases List.mem_map.mp hk with ⟨kv, hkv, rfl⟩
    rcases List.mem_append.mp hkv with hkv | hkv
    · have hsome : below.getLast? = some kv := Option.mem_toList.mp hkv
      have hmem : kv ∈ below := List.mem_of_mem_getLast? hsome
      have hlt : ltLex kv.1 key = true := mem_takeWhile_true _ idx kv hmem
      refine ⟨?_, List.mem_map.mpr ⟨kv, (List.takeWhile_sublist _).subset hmem, rfl⟩⟩
      intro hc
      rw [hc, ltLex_irrefl] at hlt
      cases hlt
    · have hsome : above.find? (fun kv => kv.1 ≠ key) = some kv :=
        Option.mem_toList.mp hkv
      have hmem : kv ∈ above := List.mem_of_find?_eq_some hsome
      have hne : kv.1 ≠ key := by simpa using List.find?_some hsome
      exact ⟨hne, List.mem_map.mpr ⟨kv, (List.dropWhile_sublist _).subset hmem, rfl⟩⟩
  · intro k' hk' hk'ne
    rcases List.mem_map.mp hk' with ⟨kv', hkv', rfl⟩
    rcases hlt : ltLex kv'.1 key with _ | _
    · -- kv'.1 above key
      have hkey : ltLex key kv'.1 = true := by
        rcases ltLex_flip hlt with heq | h
        · exact absurd heq hk'ne
        · exact h
      have habovemem : kv' ∈ above := mem_above hkv' hlt
      have hfind : ∃ r, above.find? (fun kv => kv.1 ≠ key) = some r := by
        rcases hf : above.find? (fun kv => kv.1 ≠ key) with _ | r
        · exfalso
          have := List.find?_eq_none.mp hf kv' habovemem
          simp only [decide_eq_true_eq] at this
          exact this hk'ne
        · exact ⟨r, hf⟩
      rcases hfind with ⟨r, hr⟩
      have hrmem : r ∈ above := List.mem_of_find?_eq_some hr
      have habove_sorted : SortedIdx above :=
        List.Pairwise.sublist (List.dropWhile_sublist _) hs
      refine ⟨r.1, List.mem_map.mpr ⟨r, List.mem_append.mpr (Or.inr
        (Option.mem_toList.mpr hr)), rfl⟩, ?_⟩
      refine cpl_mono_above ?_ ?_
      · exact dropWhile_ge_min hs r hrmem
      · exact find_ne_min habove_sorted hr kv' habovemem hk'ne
    · -- kv'.1 below key
      have hbelowmem : kv' ∈ below := mem_below hs hkv' hlt
      have hbelow_ne : below ≠ [] := List.ne_nil_of_mem hbelowmem
      have hlast : ∃ w, below.getLast? = some w := by
        rcases hl : below.getLast? with _ | w
        · exact absurd (List.getLast?_eq_none_iff.mp hl) hbelow_ne
        · exact ⟨w, rfl⟩
      rcases hlast with ⟨w, hw⟩
      have hwmem : w ∈ below := List.mem_of_mem_getLast? hw
      have hwlt : ltLex w.1 key = true := mem_takeWhile_true _ idx w hwmem
      have hbelow_sorted : SortedIdx below :=
        List.Pairwise.sublist (List.takeWhile_sublist _) hs
      refine ⟨w.1, List.mem_map.mpr ⟨w, List.mem_append.mpr (Or.inl
        (Option.mem_toList.mpr hw)), rfl⟩, ?_⟩
      refine cpl_mono_below ?_ (ltLex_asymm hwlt)
      exact getLast_max hbelow_sorted hw kv' hbelowmem

/-- The spec's nearest-neighbour formula also equals `1 +` the longest hex
prefix shared with any other distinct stored key. -/
theorem spec_neighbor_eq_allmax {V : Type} (idx : List (List Nat × V))
    (key : List Nat) :
    spec_neighbor_len idx key =
      (((idx.map (·.1)).filter (fun k => k ≠ key)).map
        (fun k => common_hex_len key k + 1)).foldr max 0 := by
  rw [spec_neighbor_len]
  set ks := idx.map (·.1) with hks
  set lows := ks.filter (fun k => ltLex k key) with hlows
  set highs := ks.filter (fun k => ltLex key k) with hhighs
  refine max_eq_allmax idx key _ ?_ ?_
  · intro k hk
    rcases List.mem_append.mp hk with hk | hk
    · have hsome : lexMax? lows = some k := Option.mem_toList.mp hk
      have hmem : k ∈ lows := lexMax?_mem hsome
      rcases List.mem_filter.mp hmem with ⟨hmem', hlt⟩
      refine ⟨?_, hmem'⟩
      intro hc
      rw [hc] at hlt
      rw [ltLex_irrefl] at hlt
      cases hlt
    · have hsome : lexMin? highs = some k := Option.mem_toList.mp hk
      have hmem : k ∈ highs := lexMin?_mem hsome
      rcases List.mem_filter.mp hmem with ⟨hmem', hlt⟩
      refine ⟨?_, hmem'⟩
      intro hc
      rw [hc] at hlt
      rw [ltLex_irrefl] at hlt
      cases hlt
  · intro k' hk' hk'ne
    rcases hlt : ltLex k' key with _ | _
    · have hkey : ltLex key k' = true := by
        rcases ltLex_flip hlt with heq | h
        · exact absurd heq hk'ne
        · exact h
      have hmem : k' ∈ highs := List.mem_filter.mpr ⟨hk', hkey⟩
      rcases lexMin?_isSome (List.ne_nil_of_mem hmem) with ⟨r, hr⟩
      have hrhigh : r ∈ highs := lexMin?_mem hr
      have hrkey : ltLex key r = true := (List.mem_filter.mp hrhigh).2
      refine ⟨r, List.mem_append.mpr (Or.inr (Option.mem_toList.mpr hr)), ?_⟩
      exact cpl_mono_above (ltLex_asymm hrkey) (lexMin?_min hr k' hmem)
    · have hmem : k' ∈ lows := List.mem_filter.mpr ⟨hk', hlt⟩
      rcases lexMax?_isSome (List.ne_nil_of_mem hmem) with ⟨w, hw⟩
      have hwlow : w ∈ lows := lexMax?_mem hw
      have hwkey : ltLex w key = true := (List.mem_filter.mp hwlow).2
      refine ⟨w, List.mem_append.mpr (Or.inl (Option.mem_toList.mpr hw)), ?_⟩
      exact cpl_mono_below (lexMax?_max hw k' hmem) (ltLex_asymm hwkey)

/-- When `key` is an exact proper prefix of some stored key, the shortest
unique prefix needs all of `key` plus one digit. -/
theorem shortest_unique_pre_case {V : Type} (idx : List (List Nat × V))
    (key : List Nat) (hs : SortedIdx idx) (kv : List Nat × V)
    (hkv : kv ∈ idx) (hne : kv.1 ≠ key) (hpre : key.isPrefixOf kv.1 = true) :
    shortest_unique_prefix_len idx key = key.length + 1 := by
  rw [shortest_unique_eq_allmax idx key hs]
  apply Nat.le_antisymm
  · apply foldr_max_le
    intro x hx
    rcases List.mem_map.mp hx with ⟨k, hk, rfl⟩
    have := common_hex_len_le key k
    omega
  · rcases List.isPrefixOf_iff_prefix.mp hpre with ⟨t, ht⟩
    have hcpl : common_hex_len key kv.1 = key.length := by
      rw [← ht, common_hex_len_append]
    have hmem : common_hex_len key kv.1 + 1 ∈
        (((idx.map (·.1)).filter (fun k => k ≠ key)).map
          (fun k => common_hex_len key k + 1)) :=
      List.mem_map.mpr ⟨kv.1, List.mem_filter.mpr
        ⟨List.mem_map.mpr ⟨kv, hkv, rfl⟩, by simpa using hne⟩, rfl⟩
    have := le_foldr_max hmem
    omega

/-! ## Claims -/

/-- C1: every internal set the engine builds (Eager, Walk, Children,
Filter, Union, Difference) and every set the expression compiler returns
iterates in strictly descending index position — every consecutive pair
`(a, b)` it produces satisfies `a.position > b.position` — and is
consequently duplicate-free. -/
theorem c1_iter_strictly_descending :
    (∀ s : RSet, WF s →
      Desc (iterR s) ∧ ((iterR s).map (·.position)).Nodup) ∧
    (∀ (ctx : EvalCtx) (e : Expr) (S : RSet), WFCtx ctx → WFe e →
      evalE ctx e = some (.ok S) →
      Desc (iterR S) ∧ ((iterR S).map (·.position)).Nodup) :=
  ⟨fun _ hw => ⟨iter_desc hw, desc_nodup (iter_desc hw)⟩,
   fun _ _ _ hctx hwe h =>
     ⟨iter_desc (evalE_wf hctx hwe h),
      desc_nodup (iter_desc (evalE_wf hctx hwe h))⟩⟩

theorem c1_witness :
    (WF (RSet.union (.eager [⟨4, 4, [3]⟩, ⟨2, 2, [1]⟩]) (.eager [⟨3, 3, [2]⟩])) ∧
      Desc (iterR (RSet.union (.eager [⟨4, 4, [3]⟩, ⟨2, 2, [1]⟩])
        (.eager [⟨3, 3, [2]⟩]))) ∧
      ((iterR (RSet.union (.eager [⟨4, 4, [3]⟩, ⟨2, 2, [1]⟩])
        (.eager [⟨3, 3, [2]⟩]))).map (·.position)).Nodup) ∧
    (Desc (iterR (RSet.eager [])) ∧
      ((iterR (RSet.eager [])).map (·.position)).Nodup) := by
  refine ⟨⟨by decide, ?_⟩, ?_⟩
  · exact c1_iter_strictly_descending.1 _ (by decide)
  · refine c1_iter_strictly_descending.2
      ⟨fun id => some ⟨id, id, []⟩, [], [], fun l => l, fun _ => 0⟩
      .none' (.eager []) ⟨by decide, ?_⟩ trivial rfl
    intro id1 id2 e1 e2 h1 h2 heq
    injection h1 with h1'
    injection h2 with h2'
    subst h1'
    subst h2'
    have : id1 = id2 := heq
    subst this
    rfl

/-- C2 counterexample: a probe whose underlying iterator holds a single
entry at position 2, called at an entry of position 3, advances past
nothing, stops on the position-2 entry and answers `NotThisOne` — the
entry it stopped on has a LOWER position than the argument, not a higher
one as the claim states. -/
theorem c2_counterexample :
    (Probe.step (.fromIter [⟨2, 2, [1]⟩]) ⟨3, 3, [2]⟩).1 =
      PredicateMatch.NotThisOne ∧
    ([(⟨2, 2, [1]⟩ : IndexEntry)].dropWhile
      (fun x => (⟨3, 3, [2]⟩ : IndexEntry).position < x.position)) =
      [⟨2, 2, [1]⟩] ∧
    ¬ ((⟨2, 2, [1]⟩ : IndexEntry).position >
        (⟨3, 3, [2]⟩ : IndexEntry).position) :=
  ⟨rfl, rfl, by decide⟩

/-- C2 (amended): the iterator-backed probe advances its iterator while
entries have position strictly greater than the argument's; if the
remaining entry's position equals the argument's it answers `Match` and
consumes it; if the iterator stopped on a *lower*-position entry it
answers `NotThisOne`; if the iterator is exhausted it answers
`NeverAgain`.  Moreover `Match` is answered exactly at the positions the
iterator still holds. -/
theorem c2_predicate_probe (rem : List IndexEntry) (e : IndexEntry)
    (h : Desc rem) :
    (∀ x ∈ rem.takeWhile (fun x => e.position < x.position),
      e.position < x.position) ∧
    (match rem.dropWhile (fun x => e.position < x.position) with
     | [] => (Probe.fromIter rem).step e = (.NeverAgain, .fromIter [])
     | x :: rest =>
       if x.position = e.position
       then (Probe.fromIter rem).step e = (.Match, .fromIter rest)
       else x.position < e.position ∧
         (Probe.fromIter rem).step e = (.NotThisOne, .fromIter (x :: rest))) ∧
    (((Probe.fromIter rem).step e).1 = .Match ↔
      e.position ∈ rem.map (·.position)) := by
  refine ⟨?_, ?_, ?_⟩
  · intro x hx
    simpa using mem_takeWhile_true _ rem x hx
  · rcases hdw : rem.dropWhile (fun x => e.position < x.position) with _ | ⟨x, rest⟩
    · rw [hdw]
      simp only [Probe.step, hdw]
    · rw [hdw]
      dsimp only
      have hxle : ¬ (e.position < x.position) := by
        simpa using dropWhile_head_false _ rem x rest hdw
      by_cases heq : x.position = e.position
      · rw [if_pos heq]
        simp only [Probe.step, hdw, if_pos heq]
      · rw [if_neg heq]
        refine ⟨by omega, ?_⟩
        simp only [Probe.step, hdw, if_neg heq]
  · rw [step_fromIter_match e h]
    simp only [Probe.matches, List.any_eq_true, List.mem_map,
      decide_eq_true_eq]

theorem c2_predicate_probe_witness :
    Desc [(⟨4, 4, [3]⟩ : IndexEntry), ⟨2, 2, [1]⟩] ∧
    (((Probe.fromIter [(⟨4, 4, [3]⟩ : IndexEntry), ⟨2, 2, [1]⟩]).step
      ⟨3, 3, [2]⟩).1 = .Match ↔
      (⟨3, 3, [2]⟩ : IndexEntry).position ∈
        [(⟨4, 4, [3]⟩ : IndexEntry), ⟨2, 2, [1]⟩].map (·.position)) :=
  ⟨by decide,
   (c2_predicate_probe [⟨4, 4, [3]⟩, ⟨2, 2, [1]⟩] ⟨3, 3, [2]⟩ (by decide)).2.2⟩

/-- C3: the tri-state combinators compute exactly — `and` is `Match` iff
both are `Match`, `NeverAgain` if either is, `NotThisOne` otherwise; `or`
is `NeverAgain` only when both are, `Match` if either is, `NotThisOne`
otherwise; `and_not` is `NeverAgain` if the first is, else `NotThisOne` if
the second matches, else `Match` if the first matches, else `NotThisOne`;
in particular a `NeverAgain` second argument alone never makes `and_not`
answer `NeverAgain`. -/
theorem c3_combinators :
    (∀ a b : PredicateMatch,
      a.and b = (if a = .Match ∧ b = .Match then .Match
        else if a = .NeverAgain ∨ b = .NeverAgain then .NeverAgain
        else .NotThisOne) ∧
      a.or b = (if a = .NeverAgain ∧ b = .NeverAgain then .NeverAgain
        else if a = .Match ∨ b = .Match then .Match
        else .NotThisOne) ∧
      a.and_not b = (if a = .NeverAgain then .NeverAgain
        else if b = .Match then .NotThisOne
        else if a = .Match then .Match
        else .NotThisOne)) ∧
    (∀ a : PredicateMatch, a ≠ .NeverAgain →
      a.and_not .NeverAgain ≠ .NeverAgain) := by
  constructor
  · intro a b
    cases a <;> cases b <;> exact ⟨by decide, by decide, by decide⟩
  · intro a ha
    cases a
    · decide
    · decide
    · exact absurd rfl ha

theorem c3_witness :
    (PredicateMatch.Match.and .NotThisOne =
      (if (PredicateMatch.Match = .Match ∧ PredicateMatch.NotThisOne = .Match)
        then PredicateMatch.Match
        else if (PredicateMatch.Match = .NeverAgain ∨
          PredicateMatch.NotThisOne = .NeverAgain) then PredicateMatch.NeverAgain
        else PredicateMatch.NotThisOne)) ∧
    (PredicateMatch.NotThisOne ≠ .NeverAgain ∧
      PredicateMatch.NotThisOne.and_not .NeverAgain ≠ .NeverAgain) :=
  ⟨(c3_combinators.1 .Match .NotThisOne).1,
   by decide, c3_combinators.2 .NotThisOne (by decide)⟩

/-- A concrete evaluation context (every id present, positions = ids) used
to exercise the evaluator on closed inputs. -/
def ctx0 : EvalCtx :=
  ⟨fun id => some ⟨id, id, []⟩, [4, 2], [⟨4, 4, [3]⟩, ⟨2, 2, [1]⟩],
   fun l => l, fun _ => 0⟩

/-- A concrete context whose index lacks the id 9. -/
def ctxP : EvalCtx :=
  ⟨fun id => if id = 9 then none else some ⟨id, id, []⟩, [9], [],
   fun l => l, fun _ => 0⟩

/-- C4: compiling `Intersection(a,b)` yields a `FilterRevset` whose
candidates are `evaluate(a)` and whose predicate is `evaluate(b)`; its
iterator emits a candidate on `Match`, skips it on `NotThisOne`, and
terminates the whole stream on `NeverAgain`; consequently, for
position-determined sets it enumerates, in descending position, exactly
the entries of the candidate set whose position also occurs in the
predicate set. -/
theorem c4_intersection_filter :
    (∀ (ctx : EvalCtx) (a b : Expr) (S : RSet),
      evalE ctx (.intersection a b) = some (.ok S) →
      ∃ s1 s2, evalE ctx a = some (.ok s1) ∧ evalE ctx b = some (.ok s2) ∧
        S = .filterSet s1 s2) ∧
    (∀ (c : IndexEntry) (cs : List IndexEntry) (pr pr' : Probe),
      (pr.step c = (.Match, pr') →
        filterLoop (c :: cs) pr = c :: filterLoop cs pr') ∧
      (pr.step c = (.NotThisOne, pr') →
        filterLoop (c :: cs) pr = filterLoop cs pr') ∧
      (pr.step c = (.NeverAgain, pr') → filterLoop (c :: cs) pr = [])) ∧
    (∀ s1 s2 : RSet, WF s1 → WF s2 → NoPure s2 →
      Desc (iterR (.filterSet s1 s2)) ∧
      iterR (.filterSet s1 s2) = (iterR s1).filter
        (fun e => ((iterR s2).map (·.position)).contains e.position) ∧
      ∀ e : IndexEntry, (e ∈ iterR (.filterSet s1 s2) ↔
        e ∈ iterR s1 ∧ e.position ∈ (iterR s2).map (·.position))) := by
  refine ⟨?_, ?_, ?_⟩
  · intro ctx a b S h
    rw [evalE] at h
    rcases bindE_ok h with ⟨s1, h1, h1'⟩
    rcases bindE_ok h1' with ⟨s2, h2, h2'⟩
    exact ⟨s1, s2, h1, h2, (Except.ok.inj (Option.some.inj h2')).symm⟩
  · intro c cs pr pr'
    refine ⟨?_, ?_, ?_⟩ <;> intro h <;> rw [filterLoop, h]
  · intro s1 s2 h1 h2 hn
    have heq : iterR (.filterSet s1 s2) = (iterR s1).filter
        (fun e => ((iterR s2).map (·.position)).contains e.position) := by
      rw [iterR, filterLoop_eq_filter _ _ (iter_desc h1) (toProbe_wf h2)]
      exact List.filter_congr (fun e _ => matches_toProbe h2 hn e)
    refine ⟨iter_desc ⟨h1, h2⟩, heq, ?_⟩
    intro e
    rw [heq]
    simp only [List.mem_filter, List.contains_iff_exists_mem_beq,
      beq_iff_eq]
    constructor
    · rintro ⟨he, x, hx, hp⟩
      exact ⟨he, hp ▸ hx⟩
    · rintro ⟨he, hm⟩
      exact ⟨he, e.position, hm, rfl⟩

theorem c4_witness :
    ((Probe.fromIter [(⟨3, 3, []⟩ : IndexEntry)]).step ⟨3, 3, []⟩ =
      (.Match, .fromIter []) ∧
      filterLoop [⟨3, 3, []⟩, ⟨1, 1, []⟩] (.fromIter [⟨3, 3, []⟩]) =
        ⟨3, 3, []⟩ :: filterLoop [⟨1, 1, []⟩] (.fromIter [])) ∧
    (WF (RSet.eager [⟨4, 4, []⟩, ⟨3, 3, []⟩]) ∧
      WF (RSet.eager [⟨3, 3, []⟩, ⟨2, 2, []⟩]) ∧
      NoPure (RSet.eager [⟨3, 3, []⟩, ⟨2, 2, []⟩]) ∧
      iterR (.filterSet (RSet.eager [⟨4, 4, []⟩, ⟨3, 3, []⟩])
          (RSet.eager [⟨3, 3, []⟩, ⟨2, 2, []⟩])) =
        (iterR (RSet.eager [⟨4, 4, []⟩, ⟨3, 3, []⟩])).filter
          (fun e => ((iterR (RSet.eager [⟨3, 3, []⟩, ⟨2, 2, []⟩])).map
            (·.position)).contains e.position)) := by
  refine ⟨⟨rfl, ?_⟩, by decide, by decide, by decide, ?_⟩
  · exact (c4_intersection_filter.2.1 ⟨3, 3, []⟩ [⟨1, 1, []⟩]
      (.fromIter [⟨3, 3, []⟩]) (.fromIter [])).1 rfl
  · exact (c4_intersection_filter.2.2 (RSet.eager [⟨4, 4, []⟩, ⟨3, 3, []⟩])
      (RSet.eager [⟨3, 3, []⟩, ⟨2, 2, []⟩])
      (by decide) (by decide) (by decide)).2.1

/-- C5: `resolve_prefix_with` answers `NoMatch` exactly when no stored key
extends the prefix; a `SingleMatch` answer carries the mapped values of
every entry whose key is the unique matching key (duplicated keys
preserved), and is produced whenever exactly one distinct key matches; and
`AmbiguousMatch` exactly when two distinct stored keys extend the
prefix. -/
theorem c5_resolve_prefix_with {V U : Type} (idx : List (List Nat × V))
    (p : List Nat) (f : V → U) (hs : SortedIdx idx)
    (heven : ∀ kv ∈ idx, kv.1.length % 2 = 0) :
    (resolve_prefix_with idx p f = .NoMatch ↔
      ∀ kv ∈ idx, ¬ (p.isPrefixOf kv.1 = true)) ∧
    (∀ vs, resolve_prefix_with idx p f = .SingleMatch vs →
      ∃ k, p.isPrefixOf k = true ∧ (∃ kv ∈ idx, kv.1 = k) ∧
        (∀ kv ∈ idx, p.isPrefixOf kv.1 = true → kv.1 = k) ∧
        vs = (idx.filter (fun kv => kv.1 = k)).map (fun kv => f kv.2)) ∧
    ((∃ k, p.isPrefixOf k = true ∧ (∃ kv ∈ idx, kv.1 = k) ∧
        (∀ kv ∈ idx, p.isPrefixOf kv.1 = true → kv.1 = k)) →
      ∃ vs, resolve_prefix_with idx p f = .SingleMatch vs) ∧
    (resolve_prefix_with idx p f = .AmbiguousMatch ↔
      ∃ kv1 ∈ idx, ∃ kv2 ∈ idx, p.isPrefixOf kv1.1 = true ∧
        p.isPrefixOf kv2.1 = true ∧ kv1.1 ≠ kv2.1) :=
  resolve_spec idx p f hs heven

theorem c5_witness :
    SortedIdx [([0, 0], 10), ([0, 9], 20), ([0, 9], 21)] ∧
    (∀ kv ∈ [([0, 0], 10), ([0, 9], 20), ([0, 9], 21)],
      kv.1.length % 2 = 0) ∧
    (resolve_prefix_with [([0, 0], 10), ([0, 9], 20), ([0, 9], 21)]
      [0] (fun v => v) = .AmbiguousMatch ↔
      ∃ kv1 ∈ [([0, 0], 10), ([0, 9], 20), ([0, 9], 21)],
        ∃ kv2 ∈ [([0, 0], 10), ([0, 9], 20), ([0, 9], 21)],
          ([0] : List Nat).isPrefixOf kv1.1 = true ∧
          ([0] : List Nat).isPrefixOf kv2.1 = true ∧ kv1.1 ≠ kv2.1) :=
  ⟨by decide, by decide,
   (c5_resolve_prefix_with [([0, 0], 10), ([0, 9], 20), ([0, 9], 21)]
     [0] (fun v => v) (by decide) (by decide)).2.2.2⟩

/-- C6: `shortest_unique_prefix_len idx key` equals the spec's
nearest-neighbor formula (max over the two distinct sorted neighbors of
`common_hex_prefix_len + 1`, 0 with no neighbor), equals 1 + the longest
hex prefix `key` shares with any other distinct stored key (as a fold of
maxima over all distinct keys, 0 when none exists), and equals
`key.length + 1` whenever `key` is a proper prefix of some stored key. -/
theorem c6_shortest_unique {V : Type} (idx : List (List Nat × V))
    (key : List Nat) (hs : SortedIdx idx) :
    shortest_unique_prefix_len idx key = spec_neighbor_len idx key ∧
    shortest_unique_prefix_len idx key =
      (((idx.map (·.1)).filter (fun k => k ≠ key)).map
        (fun k => common_hex_len key k + 1)).foldr max 0 ∧
    ((∀ kv ∈ idx, kv.1 = key) → shortest_unique_prefix_len idx key = 0) ∧
    (∀ kv ∈ idx, kv.1 ≠ key → key.isPrefixOf kv.1 = true →
      shortest_unique_prefix_len idx key = key.length + 1) := by
  have hall := shortest_unique_eq_allmax idx key hs
  refine ⟨hall.trans (spec_neighbor_eq_allmax idx key).symm, hall, ?_, ?_⟩
  · intro hsame
    rw [hall]
    have hnil : (idx.map (·.1)).filter (fun k => k ≠ key) = [] := by
      rw [List.filter_eq_nil_iff]
      intro k hk
      rcases List.mem_map.mp hk with ⟨kv, hkv, rfl⟩
      simp [hsame kv hkv]
    rw [hnil]
    rfl
  · intro kv hkv hne hpre
    exact shortest_unique_pre_case idx key hs kv hkv hne hpre

theorem c6_witness :
    SortedIdx [([0, 0], 10), ([0, 9], 20), ([1, 2], 30)] ∧
    shortest_unique_prefix_len [([0, 0], 10), ([0, 9], 20), ([1, 2], 30)]
        [0, 0] =
      spec_neighbor_len [([0, 0], 10), ([0, 9], 20), ([1, 2], 30)] [0, 0] :=
  ⟨by decide,
   (c6_shortest_unique [([0, 0], 10), ([0, 9], 20), ([1, 2], 30)]
     [0, 0] (by decide)).1⟩

/-- C7: `take_latest_revset` keeps at most `count` entries (exactly
`min count candidates.length`), keeps nothing when `count = 0`, returns a
strictly descending sub-permutation of the candidates, and every kept
entry strictly dominates every discarded candidate in the lexicographic
(committer timestamp, position) key; the `Latest` evaluator arm applies it
to the compiled candidate set. -/
theorem c7_take_latest (ts : Nat → Int) (candidates : List IndexEntry)
    (count : Nat) (hdesc : Desc candidates) :
    (take_latest_revset ts candidates count).length =
      min count candidates.length ∧
    take_latest_revset ts candidates 0 = [] ∧
    Desc (take_latest_revset ts candidates count) ∧
    (take_latest_revset ts candidates count).Subperm candidates ∧
    (∀ x ∈ take_latest_revset ts candidates count, ∀ y ∈ candidates,
      y ∉ take_latest_revset ts candidates count →
      keyLt (itemKey ts y) (itemKey ts x)) ∧
    (∀ (ctx : EvalCtx) (a : Expr) (s : RSet), evalE ctx a = some (.ok s) →
      evalE ctx (.latest a count) =
        some (.ok (.eager (take_latest_revset ctx.store (iterR s) count)))) := by
  rcases take_latest_spec ts candidates count hdesc with ⟨hlen, hd, hsub, hdom⟩
  refine ⟨hlen, by rw [take_latest_revset, if_pos rfl], hd, hsub, hdom, ?_⟩
  intro ctx a s h
  rw [evalE, h]
  rfl

theorem c7_witness :
    Desc [(⟨4, 4, []⟩ : IndexEntry), ⟨2, 2, []⟩, ⟨1, 1, []⟩] ∧
    (take_latest_revset (fun _ => 0)
        [(⟨4, 4, []⟩ : IndexEntry), ⟨2, 2, []⟩, ⟨1, 1, []⟩] 2).length =
      min 2 [(⟨4, 4, []⟩ : IndexEntry), ⟨2, 2, []⟩, ⟨1, 1, []⟩].length :=
  ⟨by decide,
   (c7_take_latest (fun _ => 0) [⟨4, 4, []⟩, ⟨2, 2, []⟩, ⟨1, 1, []⟩] 2
     (by decide)).1⟩

/-- C9: the `Present` arm passes a successful evaluation through
unchanged, substitutes the empty set for a `NoSuchRevision` failure, and
propagates `AmbiguousIdPrefix` and `StoreError` failures unchanged. -/
theorem c9_present (ctx : EvalCtx) (x : Expr) :
    (∀ S, evalE ctx x = some (.ok S) →
      evalE ctx (.present x) = some (.ok S)) ∧
    (∀ id, evalE ctx x = some (.error (.NoSuchRevision id)) →
      evalE ctx (.present x) = some (.ok (.eager []))) ∧
    (∀ p, evalE ctx x = some (.error (.AmbiguousIdPrefix p)) →
      evalE ctx (.present x) = some (.error (.AmbiguousIdPrefix p))) ∧
    (∀ s, evalE ctx x = some (.error (.StoreError s)) →
      evalE ctx (.present x) = some (.error (.StoreError s))) := by
  refine ⟨?_, ?_, ?_, ?_⟩ <;> intro v h <;> rw [evalE, h]

theorem c9_witness :
    evalE ctx0 (.err (.NoSuchRevision 0)) =
      some (.error (.NoSuchRevision 0)) ∧
    evalE ctx0 (.present (.err (.NoSuchRevision 0))) =
      some (.ok (.eager [])) :=
  ⟨rfl, (c9_present ctx0 (.err (.NoSuchRevision 0))).2.1 0 rfl⟩

/-- C10: `revset_for_commit_ids` resolves every id with
`entry_by_id(id).unwrap()`; when every id is present the unwrap cannot
fail and the result is an `Eager` set sorted strictly descending by
position with duplicates removed, but one absent id makes the whole
evaluation panic (modelled `none`) instead of returning a `RevsetError`;
the same holds for the `VisibleHeads` arm over the context's head ids. -/
theorem c10_unwrap_precondition (ctx : EvalCtx) (ids : List Nat) :
    ((∀ id1 id2 e1 e2, ctx.entryById id1 = some e1 →
        ctx.entryById id2 = some e2 → e1.position = e2.position → e1 = e2) →
      (∀ id ∈ ids, (ctx.entryById id).isSome) →
      ∃ es, revset_for_commit_ids ctx.entryById ids = some es ∧ Desc es ∧
        evalE ctx (.commits ids) = some (.ok (.eager es))) ∧
    ((∃ id ∈ ids, ctx.entryById id = none) →
      revset_for_commit_ids ctx.entryById ids = none ∧
      evalE ctx (.commits ids) = none ∧
      ∀ err, evalE ctx (.commits ids) ≠ some (.error err)) ∧
    ((∃ id ∈ ctx.visibleHeads, ctx.entryById id = none) →
      evalE ctx .visibleHeads = none) := by
  refine ⟨?_, ?_, ?_⟩
  · intro hinj hall
    rcases lookupAll_some hall with ⟨es0, hes0⟩
    have hrev : revset_for_commit_ids ctx.entryById ids =
        some (dedupAdj (sortByPosDesc es0)) := by
      rw [revset_for_commit_ids, hes0]
    refine ⟨dedupAdj (sortByPosDesc es0), hrev,
      revset_for_commit_ids_desc hinj hrev, ?_⟩
    rw [evalE, hrev]
  · intro habs
    have hl := lookupAll_none habs
    have hrev : revset_for_commit_ids ctx.entryById ids = none := by
      rw [revset_for_commit_ids, hl]
    have hev : evalE ctx (.commits ids) = none := by
      rw [evalE, hrev]
    exact ⟨hrev, hev, fun err hcontra => by rw [hev] at hcontra; cases hcontra⟩
  · intro habs
    have hl := lookupAll_none habs
    have hrev : revset_for_commit_ids ctx.entryById ctx.visibleHeads = none := by
      rw [revset_for_commit_ids, hl]
    rw [evalE, hrev]

theorem c10_witness :
    (∃ es, revset_for_commit_ids ctx0.entryById [4, 2] = some es ∧
      Desc es ∧ evalE ctx0 (.commits [4, 2]) = some (.ok (.eager es))) ∧
    revset_for_commit_ids ctxP.entryById [9] = none ∧
    evalE ctxP (.commits [9]) = none := by
  refine ⟨?_, ?_⟩
  · refine (c10_unwrap_precondition ctx0 [4, 2]).1 ?_ (by decide)
    intro id1 id2 e1 e2 h1 h2 heq
    injection h1 with h1'
    injection h2 with h2'
    subst h1'
    subst h2'
    have : id1 = id2 := heq
    subst this
    rfl
  · have h := (c10_unwrap_precondition ctxP [9]).2.1
      ⟨9, List.mem_singleton.mpr rfl, by decide⟩
    exact ⟨h.1, h.2.1⟩

/-- C8: on strictly descending duplicate-free inputs, Union and Difference
iterate in strictly descending order, `Union(S,S)` iterates exactly `S`,
`Difference(S,S)` iterates nothing, and `Difference(S, ∅)` iterates
exactly `S`. -/
theorem c8_union_difference_algebra (S T : RSet) (hS : WF S) (hT : WF T) :
    Desc (iterR (.union S T)) ∧
    Desc (iterR (.difference S T)) ∧
    iterR (.union S S) = iterR S ∧
    iterR (.difference S S) = [] ∧
    iterR (.difference S (.eager [])) = iterR S := by
  refine ⟨?_, ?_, ?_, ?_, ?_⟩
  · rw [iterR]
    exact unionIter_desc (iter_desc hS) (iter_desc hT)
  · rw [iterR]
    exact differenceIter_desc _ (iter_desc hS)
  · rw [iterR]
    exact unionIter_self _
  · rw [iterR]
    exact differenceIter_self _
  · rw [iterR]
    rw [show iterR (RSet.eager []) = [] from by rw [iterR]]
    exact differenceIter_nil _

theorem c8_witness :
    WF (RSet.eager [⟨4, 4, [3]⟩, ⟨2, 2, [1]⟩]) ∧
    WF (RSet.eager [⟨3, 3, [2]⟩, ⟨2, 2, [1]⟩, ⟨1, 1, [0]⟩]) ∧
    iterR (.union (RSet.eager [⟨4, 4, [3]⟩, ⟨2, 2, [1]⟩])
      (RSet.eager [⟨4, 4, [3]⟩, ⟨2, 2, [1]⟩])) =
      iterR (RSet.eager [⟨4, 4, [3]⟩, ⟨2, 2, [1]⟩]) := by
  refine ⟨by decide, by decide, ?_⟩
  exact (c8_union_difference_algebra
    (RSet.eager [⟨4, 4, [3]⟩, ⟨2, 2, [1]⟩])
    (RSet.eager [⟨3, 3, [2]⟩, ⟨2, 2, [1]⟩, ⟨1, 1, [0]⟩])
    (by decide) (by decide)).2.2.1

end RevsetEngine
